import Mathlib

/-!
SmartMutex, a deadlock-detecting mutex.

A shallow embedding of `include/smart_mutex.h` (namespace `CSC`), followed by theorems about
it.  Thread identifiers and mutex identities are natural numbers, the three
`std::unordered_map`s are association lists with at most one binding per key in use,
and the member functions become pure functions that take the calling thread
(`std::this_thread::get_id()`) as an explicit argument.
-/

namespace CSC

/-- The type `std::thread::id`: a thread identifier that can only be compared for
equality. -/
abbrev ThreadId := Nat

/-! ## `std::unordered_map` -/

namespace UMap

/-- The lookup `m.find(k)`: the value bound to `k`, when there is one. -/
def find? {κ ν : Type} [DecidableEq κ] : List (κ × ν) → κ → Option ν
  | [], _ => none
  | (k', v) :: rest, k => if k' = k then some v else find? rest k

/-- The test `m.contains(k)`. -/
def contains {κ ν : Type} [DecidableEq κ] (m : List (κ × ν)) (k : κ) : Bool :=
  (find? m k).isSome

/-- The call `m.erase(k)`: every binding of `k` is dropped, the rest is untouched. -/
def erase {κ ν : Type} [DecidableEq κ] (m : List (κ × ν)) (k : κ) : List (κ × ν) :=
  m.filter (fun p => decide (p.1 ≠ k))

/-- The assignment `m[k] = v`: `k` is bound to `v`, replacing an earlier binding. -/
def assign {κ ν : Type} [DecidableEq κ] (m : List (κ × ν)) (k : κ) (v : ν) : List (κ × ν) :=
  (k, v) :: erase m k

/-- The bare subscript `m[k]` used for its reference only: a default-constructed value is
inserted when `k` has no binding, and nothing changes when it has one. -/
def subscript {κ ν : Type} [DecidableEq κ] (m : List (κ × ν)) (k : κ) (dflt : ν) :
    List (κ × ν) :=
  if contains m k then m else (k, dflt) :: m

end UMap

/-! ## `detail::DependencyManager` -/

/-- The class `detail::DependencyManager`; its only member is the map `dependencies`,
from a thread to the thread it depends on. -/
structure DependencyManager where
  dependencies : List (ThreadId × ThreadId)
  deriving DecidableEq, Repr

namespace DependencyManager

/-- The `for` loop of `set_thread_dependency`, started at `thread_id`, for the calling
thread `self`.  One unit of `fuel` is spent per evaluation of the loop condition
`dependencies.contains(thread_id)`.  `some true`: the condition became false and the loop
was left normally; `some false`: the body hit `return false`; `none`: the fuel ran out.
The subscript `dependencies[thread_id]` is only evaluated on a key that is present, so it
never inserts. -/
def walk (dependencies : List (ThreadId × ThreadId)) (self : ThreadId) :
    Nat → ThreadId → Option Bool
  | 0, _ => none
  | fuel + 1, thread_id =>
    match UMap.find? dependencies thread_id with
    | none => some true
    | some next => if next = self then some false else walk dependencies self fuel next

/-- The method `set_thread_dependency(target_thread_id)` called by thread `self`: the
returned boolean and the manager afterwards.  The loop is run with
`dependencies.length + 1` units of fuel, which is enough whenever the loop ends at all
(`walk_fuel_enough`); `none` means that the loop does not end. -/
def set_thread_dependency (dm : DependencyManager) (self target_thread_id : ThreadId) :
    Option (Bool × DependencyManager) :=
  if self = target_thread_id then some (false, dm)
  else
    match walk dm.dependencies self (dm.dependencies.length + 1) target_thread_id with
    | none => none
    | some false => some (false, dm)
    | some true => some (true, ⟨UMap.assign dm.dependencies self target_thread_id⟩)

/-- The method `clear_thread_dependency()` called by thread `self`. -/
def clear_thread_dependency (dm : DependencyManager) (self : ThreadId) : DependencyManager :=
  ⟨UMap.erase dm.dependencies self⟩

/-- The relation `Reaches d x y`: `y` is reached from `x` by following one or more recorded edges
`x → d[x] → d[d[x]] → ...`. -/
inductive Reaches (d : List (ThreadId × ThreadId)) : ThreadId → ThreadId → Prop
  | edge {x y : ThreadId} : UMap.find? d x = some y → Reaches d x y
  | step {x y z : ThreadId} : UMap.find? d x = some y → Reaches d y z → Reaches d x z

/-- A dependency map is acyclic when no thread reaches itself along recorded edges. -/
def Acyclic (d : List (ThreadId × ThreadId)) : Prop :=
  ∀ x, ¬ Reaches d x x

end DependencyManager

/-! ## `detail::SmartMutexID`, `std::mutex` and `detail::LockManager` -/

/-- The class `detail::SmartMutexID`: a wrapper around one `std::size_t`, compared by value. -/
structure SmartMutexID where
  id : Nat
  deriving DecidableEq, Repr

/-- The state of a `std::mutex`: `true` when it is locked. -/
abbrev StdMutex := Bool

/-- The class `detail::LockManager` without its guard `lock_manager_mx`, which is modelled
by every member function being one atomic step.  A `std::condition_variable` carries no
data of its own, so `lock_manager_CVs` binds an identity to `()`. -/
structure LockManager where
  dependency_manager : DependencyManager
  lock_manager_CVs : List (SmartMutexID × Unit)
  current_mutex_owner : List (SmartMutexID × ThreadId)
  deriving DecidableEq, Repr

/-- How one pass through the body of `LockManager::safe_lock` ends. -/
inductive SafeLockOutcome where
  /-- The function executed `return b`. -/
  | returned (b : Bool)
  /-- The thread is suspended in `lock_manager_CVs[id].wait(ulock)`; the guard is free. -/
  | waiting
  /-- The thread is suspended in `smart_mutex_underlying_mx.lock()`, the guard still held. -/
  | blocked
  deriving DecidableEq, Repr

namespace LockManager

/-- The initial `LockManager`: all three maps are empty. -/
def empty : LockManager := ⟨⟨[]⟩, [], []⟩

/-- One pass of `LockManager::safe_lock(smart_mutex_id, smart_mutex_underlying_mx)` run by
thread `self` while it holds the guard: from the loop condition (reached on entry and again
after every wake-up from `wait`) to the next `return` or the next suspension.  The result
is the outcome, the manager and the underlying mutex afterwards; `none` when the chain walk
of `set_thread_dependency` does not finish. -/
def safe_lock (lm : LockManager) (self : ThreadId) (smart_mutex_id : SmartMutexID)
    (smart_mutex_underlying_mx : StdMutex) :
    Option (SafeLockOutcome × LockManager × StdMutex) :=
  match UMap.find? lm.current_mutex_owner smart_mutex_id with
  | some owner =>
    match lm.dependency_manager.set_thread_dependency self owner with
    | none => none
    | some (false, dm) =>
      some (.returned false, ⟨dm, lm.lock_manager_CVs, lm.current_mutex_owner⟩,
        smart_mutex_underlying_mx)
    | some (true, dm) =>
      some (.waiting,
        ⟨dm, UMap.subscript lm.lock_manager_CVs smart_mutex_id (), lm.current_mutex_owner⟩,
        smart_mutex_underlying_mx)
  | none =>
    if smart_mutex_underlying_mx then some (.blocked, lm, smart_mutex_underlying_mx)
    else
      some (.returned true,
        ⟨lm.dependency_manager.clear_thread_dependency self, lm.lock_manager_CVs,
          UMap.assign lm.current_mutex_owner smart_mutex_id self⟩,
        true)

/-- The method `LockManager::try_lock` run by thread `self`: the returned boolean, the
manager and the underlying mutex afterwards.  `std::mutex::try_lock` is taken to succeed
exactly when the mutex is free. -/
def try_lock (lm : LockManager) (self : ThreadId) (smart_mutex_id : SmartMutexID)
    (smart_mutex_underlying_mx : StdMutex) : Bool × LockManager × StdMutex :=
  if smart_mutex_underlying_mx then (false, lm, smart_mutex_underlying_mx)
  else
    (true,
      ⟨lm.dependency_manager, lm.lock_manager_CVs,
        UMap.assign lm.current_mutex_owner smart_mutex_id self⟩,
      true)

/-- The method `LockManager::unlock`: whether `notify_one` was issued, the manager and the
underlying mutex afterwards. -/
def unlock (lm : LockManager) (smart_mutex_id : SmartMutexID)
    (_smart_mutex_underlying_mx : StdMutex) : Bool × LockManager × StdMutex :=
  (UMap.contains lm.lock_manager_CVs smart_mutex_id,
    ⟨lm.dependency_manager, lm.lock_manager_CVs,
      UMap.erase lm.current_mutex_owner smart_mutex_id⟩,
    false)

/-- The method `LockManager::at_smart_mutex_destruction`. -/
def at_smart_mutex_destruction (lm : LockManager) (smart_mutex_id : SmartMutexID) :
    LockManager :=
  ⟨lm.dependency_manager, UMap.erase lm.lock_manager_CVs smart_mutex_id,
    lm.current_mutex_owner⟩

end LockManager

/-! ## `SmartMutex` -/

/-- The class `SmartMutex`: its two data members.  The static member `lock_manager` is
passed to every method explicitly. -/
structure SmartMutex where
  underlying_mx : StdMutex
  id : SmartMutexID
  deriving DecidableEq, Repr

/-- How one pass of `SmartMutex::lock` ends. -/
inductive LockOutcome where
  /-- The method returned to its caller. -/
  | returned
  /-- The method called `std::terminate()`. -/
  | terminated
  /-- The thread is suspended in the `wait` of `safe_lock`. -/
  | waiting
  /-- The thread is suspended in the underlying `lock()`. -/
  | blocked
  deriving DecidableEq, Repr

namespace SmartMutex

/-- The method `SmartMutex::lock` run by thread `self` (one pass of `safe_lock`). -/
def lock (lock_manager : LockManager) (self : ThreadId) (sm : SmartMutex) :
    Option (LockOutcome × LockManager × SmartMutex) :=
  match lock_manager.safe_lock self sm.id sm.underlying_mx with
  | none => none
  | some (.returned false, lm, mx) => some (.terminated, lm, ⟨mx, sm.id⟩)
  | some (.returned true, lm, mx) => some (.returned, lm, ⟨mx, sm.id⟩)
  | some (.waiting, lm, mx) => some (.waiting, lm, ⟨mx, sm.id⟩)
  | some (.blocked, lm, mx) => some (.blocked, lm, ⟨mx, sm.id⟩)

/-- The method `void SmartMutex::try_lock()` run by thread `self`: the value handed to the
caller is of type `void`, the result of `LockManager::try_lock` is dropped. -/
def try_lock (lock_manager : LockManager) (self : ThreadId) (sm : SmartMutex) :
    Unit × LockManager × SmartMutex :=
  ((), (lock_manager.try_lock self sm.id sm.underlying_mx).2.1,
    ⟨(lock_manager.try_lock self sm.id sm.underlying_mx).2.2, sm.id⟩)

/-- The method `SmartMutex::unlock`. -/
def unlock (lock_manager : LockManager) (sm : SmartMutex) : LockManager × SmartMutex :=
  ((lock_manager.unlock sm.id sm.underlying_mx).2.1,
    ⟨(lock_manager.unlock sm.id sm.underlying_mx).2.2, sm.id⟩)

end SmartMutex

/-! ## The threads around the coordinator -/

/-- The coordinator together with its environment: the state of every
underlying mutex (keyed by the identity of the `SmartMutex` that owns it), the threads
suspended in the `wait` of `safe_lock`, and two history variables that no member function
reads:
the pairs (identity, thread) acquired and not yet released, and the last thread that
acquired each identity. -/
structure World where
  lock_manager : LockManager
  locked : List SmartMutexID
  waiting : List (ThreadId × SmartMutexID)
  holders : List (SmartMutexID × ThreadId)
  last_acquirer : List (SmartMutexID × ThreadId)
  deriving DecidableEq, Repr

/-- A step of a thread at the coordinator. -/
inductive Action where
  /-- Thread `self` calls `safe_lock` on `id` and runs its first pass. -/
  | safe_lock (self : ThreadId) (id : SmartMutexID)
  /-- Thread `self`, suspended in `wait` on `id`, wakes up (by `notify_one` or spuriously)
  and runs the next pass of the loop. -/
  | wake (self : ThreadId) (id : SmartMutexID)
  /-- Thread `self` calls `try_lock` on `id`. -/
  | try_lock (self : ThreadId) (id : SmartMutexID)
  /-- Thread `self` calls `unlock` on `id`. -/
  | unlock (self : ThreadId) (id : SmartMutexID)
  deriving DecidableEq, Repr

/-- What a step hands back to its thread. -/
inductive StepResult where
  | safe_lock_returned (b : Bool)
  | safe_lock_waiting
  | try_lock_returned (b : Bool)
  | unlock_returned (notified : Bool)
  deriving DecidableEq, Repr

namespace World

/-- The initial world: empty coordinator, every mutex free, nobody waiting. -/
def empty : World := ⟨LockManager.empty, [], [], [], []⟩

/-- The state of the underlying mutex of `id`. -/
def mutex (w : World) (id : SmartMutexID) : StdMutex :=
  decide (id ∈ w.locked)

/-- Store the state `mx` of the underlying mutex of `id`. -/
def set_mutex (locked : List SmartMutexID) (id : SmartMutexID) (mx : StdMutex) :
    List SmartMutexID :=
  if mx then id :: locked.filter (fun j => decide (j ≠ id))
  else locked.filter (fun j => decide (j ≠ id))

/-- Thread `self` is suspended in the `wait` of `safe_lock`. -/
def is_waiting (w : World) (self : ThreadId) : Bool :=
  w.waiting.any (fun p => decide (p.1 = self))

/-- One pass of `safe_lock` by `self` on `id` in the world `w`.  A pass that ends
suspended in the underlying `lock()` keeps the guard for ever, and a chain walk that does
not finish never returns: neither has a successor world. -/
def safe_lock_pass (w : World) (self : ThreadId) (id : SmartMutexID) :
    Option (StepResult × World) :=
  match w.lock_manager.safe_lock self id (w.mutex id) with
  | none => none
  | some (.blocked, _, _) => none
  | some (.waiting, lm, mx) =>
    some (.safe_lock_waiting,
      ⟨lm, set_mutex w.locked id mx, (self, id) :: w.waiting, w.holders, w.last_acquirer⟩)
  | some (.returned false, lm, mx) =>
    some (.safe_lock_returned false,
      ⟨lm, set_mutex w.locked id mx, w.waiting, w.holders, w.last_acquirer⟩)
  | some (.returned true, lm, mx) =>
    some (.safe_lock_returned true,
      ⟨lm, set_mutex w.locked id mx, w.waiting, (id, self) :: w.holders,
        UMap.assign w.last_acquirer id self⟩)

/-- The step function.  `none`: the action cannot be taken in `w` (a suspended thread
makes no call, only a suspended thread wakes, `unlock` of `id` is called only by the
thread that last acquired `id`) or has no successor world. -/
def step (w : World) : Action → Option (StepResult × World)
  | .safe_lock self id =>
    if w.is_waiting self then none else w.safe_lock_pass self id
  | .wake self id =>
    if (self, id) ∈ w.waiting then
      safe_lock_pass
        ⟨w.lock_manager, w.locked, w.waiting.filter (fun p => decide (p.1 ≠ self)),
          w.holders, w.last_acquirer⟩ self id
    else none
  | .try_lock self id =>
    if w.is_waiting self then none
    else
      match w.lock_manager.try_lock self id (w.mutex id) with
      | (true, lm, mx) =>
        some (.try_lock_returned true,
          ⟨lm, set_mutex w.locked id mx, w.waiting, (id, self) :: w.holders,
            UMap.assign w.last_acquirer id self⟩)
      | (false, lm, mx) =>
        some (.try_lock_returned false,
          ⟨lm, set_mutex w.locked id mx, w.waiting, w.holders, w.last_acquirer⟩)
  | .unlock self id =>
    if w.is_waiting self then none
    else if UMap.find? w.last_acquirer id = some self then
      match w.lock_manager.unlock id (w.mutex id) with
      | (notified, lm, mx) =>
        some (.unlock_returned notified,
          ⟨lm, set_mutex w.locked id mx, w.waiting,
            w.holders.filter (fun p => decide (p ≠ (id, self))), w.last_acquirer⟩)
    else none

/-- Run a sequence of actions; `none` as soon as one of them has no successor world. -/
def run : World → List Action → Option World
  | w, [] => some w
  | w, a :: rest =>
    match step w a with
    | none => none
    | some (_, w') => run w' rest

/-- The worlds reachable from the empty one.  A thread whose `safe_lock` returned false
goes on making calls here; under `SmartMutex::lock` the process ends at that point. -/
inductive Reachable : World → Prop
  | init : Reachable empty
  | next {w w' : World} {a : Action} {r : StepResult} :
      Reachable w → step w a = some (r, w') → Reachable w'

/-- The actual wait-for relation of `w`: `x` is suspended in `safe_lock` on some identity
whose recorded owner is `y`. -/
def WaitsFor (w : World) (x y : ThreadId) : Prop :=
  ∃ j, (x, j) ∈ w.waiting ∧ UMap.find? w.lock_manager.current_mutex_owner j = some y

/-- The actual wait-for relation extended with the edge from `c` to the recorded owner of
`id`. -/
def WaitsForExt (w : World) (c : ThreadId) (id : SmartMutexID) (x y : ThreadId) : Prop :=
  WaitsFor w x y ∨ (x = c ∧ UMap.find? w.lock_manager.current_mutex_owner id = some y)

/-- The world after `safe_lock(20)` by thread 1, `safe_lock(10)` by thread 2,
`safe_lock(10)` by thread 1 (which ends in `wait`) and `unlock(10)` by thread 2: thread 1
holds identity 20 and is about to be woken for the free identity 10, and its edge
`1 → 2` is still recorded. -/
def stale_world : World :=
  ⟨⟨⟨[(1, 2)]⟩, [(⟨10⟩, ())], [(⟨20⟩, 1)]⟩, [⟨20⟩], [(1, ⟨10⟩)], [(⟨20⟩, 1)],
    [(⟨10⟩, 2), (⟨20⟩, 1)]⟩

/-- The world that `stale_world` becomes after `safe_lock(10)` by thread 3, which
succeeds, and `safe_lock(20)` by thread 3, which ends in `wait`: thread 1 is suspended
on identity 10 with its old edge `1 → 2`, and identity 10 now belongs to thread 3, which
waits for thread 1. -/
def crossed_world : World :=
  ⟨⟨⟨[(3, 1), (1, 2)]⟩, [(⟨20⟩, ()), (⟨10⟩, ())], [(⟨10⟩, 3), (⟨20⟩, 1)]⟩,
    [⟨20⟩, ⟨10⟩], [(3, ⟨20⟩), (1, ⟨10⟩)], [(⟨10⟩, 3), (⟨20⟩, 1)],
    [(⟨10⟩, 3), (⟨20⟩, 1)]⟩

/-- Every recorded holder of an identity holds a locked mutex and is the thread that last
acquired the identity. -/
def HoldersInv (w : World) : Prop :=
  ∀ id c, (id, c) ∈ w.holders →
    id ∈ w.locked ∧ UMap.find? w.last_acquirer id = some c

/-- The step `a` with result `r` is a successful acquisition of `id` by `c`. -/
def Acquires (a : Action) (r : StepResult) (c : ThreadId) (id : SmartMutexID) : Prop :=
  (a = .safe_lock c id ∧ r = .safe_lock_returned true) ∨
  (a = .wake c id ∧ r = .safe_lock_returned true) ∨
  (a = .try_lock c id ∧ r = .try_lock_returned true)

end World

/-! ## Construction, destruction and bookkeeping -/

namespace SmartMutexID

/-- The constructor `SmartMutexID()`, run for the object at address `this`: the identity
is `reinterpret_cast<std::size_t>(this)`.  Addresses are natural numbers, and the cast
keeps the value (it only compiles when `std::size_t` can hold every pointer value). -/
def construct (this : Nat) : SmartMutexID := ⟨this⟩

end SmartMutexID

namespace SmartMutex

/-- The constructor `SmartMutex() = default` for an object at address `this`, whose member
`id` lies `id_offset` bytes into the object: the underlying mutex starts unlocked and the
identity is built from the address of the member.  The `LockManager` is not touched. -/
def construct (this id_offset : Nat) : SmartMutex :=
  ⟨false, SmartMutexID.construct (this + id_offset)⟩

/-- The destructor `~SmartMutex()`: the coordinator afterwards. -/
def destroy (lock_manager : LockManager) (sm : SmartMutex) : LockManager :=
  lock_manager.at_smart_mutex_destruction sm.id

end SmartMutex

namespace LockManager

/-- The bookkeeping size of the coordinator: the numbers of entries of the owner map, of
the dependency map and of the wait-channel map. -/
def bookkeeping (lm : LockManager) : Nat × Nat × Nat :=
  (lm.current_mutex_owner.length, lm.dependency_manager.dependencies.length,
    lm.lock_manager_CVs.length)

/-- A call of `safe_lock` that returns true on its first pass, followed by `unlock`, both
by thread `self` on the same identity and mutex (the body of the loop of `StressLockTest`);
`none` when the `safe_lock` pass does anything else. -/
def lock_unlock (lm : LockManager) (self : ThreadId) (id : SmartMutexID) (mx : StdMutex) :
    Option (LockManager × StdMutex) :=
  match lm.safe_lock self id mx with
  | some (.returned true, lm1, mx1) => some ((lm1.unlock id mx1).2.1, (lm1.unlock id mx1).2.2)
  | _ => none

/-- The pair `safe_lock`, `unlock` repeated `n` times. -/
def lock_unlock_repeat (self : ThreadId) (id : SmartMutexID) :
    Nat → LockManager → StdMutex → Option (LockManager × StdMutex)
  | 0, lm, mx => some (lm, mx)
  | n + 1, lm, mx =>
    match lm.lock_unlock self id mx with
    | none => none
    | some (lm1, mx1) => lock_unlock_repeat self id n lm1 mx1

end LockManager

/-! ## Lifetimes of `SmartMutex` objects -/

/-- What a program does to `SmartMutex` objects: it constructs one at an address or
destroys the one at an address. -/
inductive LifeEvent where
  | construct (this : Nat)
  | destroy (this : Nat)
  deriving DecidableEq, Repr

/-- The addresses of the `SmartMutex` objects alive, and every identity issued so far,
newest first. -/
structure Heap where
  live : List Nat
  issued : List SmartMutexID
  deriving DecidableEq, Repr

namespace Heap

/-- One event; `none` when it is impossible: no object is constructed at the address of a
live object, and only a live object is destroyed.  `id_offset` is the offset of the member
`id` in a `SmartMutex`. -/
def step (id_offset : Nat) (h : Heap) : LifeEvent → Option Heap
  | .construct this =>
    if this ∈ h.live then none
    else some ⟨this :: h.live, (SmartMutex.construct this id_offset).id :: h.issued⟩
  | .destroy this =>
    if this ∈ h.live then some ⟨h.live.filter (fun a => decide (a ≠ this)), h.issued⟩
    else none

/-- A sequence of events from a given heap. -/
def run (id_offset : Nat) : Heap → List LifeEvent → Option Heap
  | h, [] => some h
  | h, e :: rest =>
    match step id_offset h e with
    | none => none
    | some h' => run id_offset h' rest

/-- The identities of the objects alive. -/
def live_ids (id_offset : Nat) (h : Heap) : List SmartMutexID :=
  h.live.map (fun this => (SmartMutex.construct this id_offset).id)

end Heap

/-! ## The guard `lock_manager_mx` -/

namespace LockManager

end LockManager

/-! ## The dependency graph, instrumented -/

namespace UMap

/-- The value of the expression `m[k]`: the bound value, or the default-constructed one. -/
def subscript_value {κ ν : Type} [DecidableEq κ] (m : List (κ × ν)) (k : κ) (dflt : ν) : ν :=
  (find? m k).getD dflt

end UMap

namespace DependencyManager

/-- The `for` loop of `set_thread_dependency` with every subscript `dependencies[...]`
taken literally, as an access that inserts a default-constructed `std::thread::id`
(`no_thread`) when the key is absent: the result and the map after the loop. -/
def walk_subscript (no_thread self : ThreadId) :
    Nat → List (ThreadId × ThreadId) → ThreadId → Option (Bool × List (ThreadId × ThreadId))
  | 0, _, _ => none
  | fuel + 1, dependencies, thread_id =>
    if UMap.contains dependencies thread_id then
      if UMap.subscript_value dependencies thread_id no_thread = self then
        some (false, UMap.subscript dependencies thread_id no_thread)
      else
        walk_subscript no_thread self fuel
          (UMap.subscript (UMap.subscript dependencies thread_id no_thread) thread_id
            no_thread)
          (UMap.subscript_value (UMap.subscript dependencies thread_id no_thread) thread_id
            no_thread)
    else some (true, dependencies)

/-- The loop of `set_thread_dependency` with a count of the iterations of its body: the
result of `walk` and the number of times the body was entered. -/
def walk_count (dependencies : List (ThreadId × ThreadId)) (self : ThreadId) :
    Nat → ThreadId → Option (Bool × Nat)
  | 0, _ => none
  | fuel + 1, thread_id =>
    match UMap.find? dependencies thread_id with
    | none => some (true, 0)
    | some next =>
      if next = self then some (false, 1)
      else
        match walk_count dependencies self fuel next with
        | none => none
        | some (b, k) => some (b, k + 1)

/-- The dependency managers that arise from the empty one by calls of
`set_thread_dependency` and `clear_thread_dependency`. -/
inductive FromEmpty : DependencyManager → Prop
  | empty : FromEmpty ⟨[]⟩
  | set {dm dm' : DependencyManager} {c t : ThreadId} {b : Bool} :
      FromEmpty dm → set_thread_dependency dm c t = some (b, dm') → FromEmpty dm'
  | clear {dm : DependencyManager} {c : ThreadId} :
      FromEmpty dm → FromEmpty (clear_thread_dependency dm c)

end DependencyManager

/-! ## Runs through the facade -/

namespace Action

/-- The identity an action is about. -/
def target : Action → SmartMutexID
  | .safe_lock _ id => id
  | .wake _ id => id
  | .try_lock _ id => id
  | .unlock _ id => id

/-- The thread that takes the action. -/
def thread : Action → ThreadId
  | .safe_lock self _ => self
  | .wake self _ => self
  | .try_lock self _ => self
  | .unlock self _ => self

end Action

namespace World

/-- The threads suspended in `wait` once the thread of the action has entered its step: a
thread that wakes up is no longer suspended. -/
def entry_waiting (w : World) : Action → List (ThreadId × SmartMutexID)
  | .wake self _ => w.waiting.filter (fun p => decide (p.1 ≠ self))
  | _ => w.waiting

/-- A step made through `SmartMutex`: as `step`, except that `SmartMutex::lock` calls
`std::terminate` when `safe_lock` returns false, so that such a step has no successor
world. -/
def facade_step (w : World) (a : Action) : Option (StepResult × World) :=
  match step w a with
  | some (.safe_lock_returned false, _) => none
  | other => other

/-- The worlds of a running process: reachable from the empty one by steps through
`SmartMutex`. -/
inductive Running : World → Prop
  | init : Running empty
  | next {w w' : World} {a : Action} {r : StepResult} :
      Running w → facade_step w a = some (r, w') → Running w'

/-- Run a sequence of facade steps. -/
def facade_run : World → List Action → Option World
  | w, [] => some w
  | w, a :: rest =>
    match facade_step w a with
    | none => none
    | some (_, w') => facade_run w' rest

/-- Run a sequence of facade steps that are all about the identity `id`. -/
def run_on (id : SmartMutexID) : World → List Action → Option World
  | w, [] => some w
  | w, a :: rest =>
    if a.target = id then
      match facade_step w a with
      | none => none
      | some (_, w') => run_on id w' rest
    else none

/-- Nothing in the world refers to the identity `id`: it has no owner and no wait channel,
its underlying mutex is unlocked and no thread waits on it.  This is the state of affairs
when a `SmartMutex` with this identity has just been constructed. -/
def Fresh (w : World) (id : SmartMutexID) : Prop :=
  UMap.find? w.lock_manager.current_mutex_owner id = none ∧
  UMap.find? w.lock_manager.lock_manager_CVs id = none ∧
  id ∉ w.locked ∧
  ∀ c, (c, id) ∉ w.waiting

/-- The world after `try_lock` by thread 1 on a new `SmartMutex` with identity 10, from
the empty world: thread 1 holds it, nobody waits. -/
def held_world : World :=
  ⟨⟨⟨[]⟩, [], [(⟨10⟩, 1)]⟩, [⟨10⟩], [], [(⟨10⟩, 1)], [(⟨10⟩, 1)]⟩

/-- Every thread with a recorded dependency edge is suspended in `wait`. -/
def EdgesWait (w : World) : Prop :=
  ∀ p ∈ w.lock_manager.dependency_manager.dependencies, w.is_waiting p.1 = true

/-- The owner map has an entry for an identity exactly when its underlying mutex is
locked. -/
def OwnerInv (w : World) : Prop :=
  ∀ id, UMap.find? w.lock_manager.current_mutex_owner id = none ↔ id ∉ w.locked

/-- What calls on the identity `id` alone keep of the world `w0` they started from: the
entries for the other identities, the edges of the threads that were suspended in `w0`,
and those threads' suspension; every other edge belongs to a thread waiting on `id`. -/
structure Frame (w0 : World) (id : SmartMutexID) (w : World) : Prop where
  owner : UMap.erase w.lock_manager.current_mutex_owner id
    = w0.lock_manager.current_mutex_owner
  cvs : UMap.erase w.lock_manager.lock_manager_CVs id = w0.lock_manager.lock_manager_CVs
  deps : w.lock_manager.dependency_manager.dependencies.filter
      (fun p => w0.is_waiting p.1)
    = w0.lock_manager.dependency_manager.dependencies
  edges : ∀ p ∈ w.lock_manager.dependency_manager.dependencies,
    w0.is_waiting p.1 = true ∨ (p.1, id) ∈ w.waiting
  still : ∀ c, w0.is_waiting c = true → w.is_waiting c = true
  other : ∀ c, (c, id) ∈ w.waiting → w0.is_waiting c = false

end World

/-! ## Map lemmas -/

namespace UMap

theorem erase_cons_eq {κ ν : Type} [DecidableEq κ] (m : List (κ × ν)) (k : κ) (v : ν) :
    erase ((k, v) :: m) k = erase m k := by
  simp [erase, List.filter_cons]

theorem erase_cons_ne {κ ν : Type} [DecidableEq κ] (m : List (κ × ν)) {k k' : κ} (v : ν)
    (h : k' ≠ k) : erase ((k', v) :: m) k = (k', v) :: erase m k := by
  simp [erase, List.filter_cons, h]

theorem find?_cons_eq {κ ν : Type} [DecidableEq κ] (m : List (κ × ν)) (k : κ) (v : ν) :
    find? ((k, v) :: m) k = some v := by
  simp [find?]

theorem find?_cons_ne {κ ν : Type} [DecidableEq κ] (m : List (κ × ν)) {k k' : κ} (v : ν)
    (h : k' ≠ k) : find? ((k', v) :: m) k = find? m k := by
  simp [find?, h]

theorem find?_erase_self {κ ν : Type} [DecidableEq κ] (m : List (κ × ν)) (k : κ) :
    find? (erase m k) k = none := by
  induction m with
  | nil => rfl
  | cons p rest ih =>
    obtain ⟨k', v⟩ := p
    by_cases h : k' = k
    · subst h
      rw [erase_cons_eq]
      exact ih
    · rw [erase_cons_ne rest v h, find?_cons_ne _ v h]
      exact ih

theorem find?_erase_ne {κ ν : Type} [DecidableEq κ] (m : List (κ × ν)) {k j : κ}
    (h : j ≠ k) : find? (erase m k) j = find? m j := by
  induction m with
  | nil => rfl
  | cons p rest ih =>
    obtain ⟨k', v⟩ := p
    by_cases hk : k' = k
    · subst hk
      rw [erase_cons_eq, find?_cons_ne rest v (Ne.symm h)]
      exact ih
    · rw [erase_cons_ne rest v hk]
      by_cases hj : k' = j
      · subst hj
        rw [find?_cons_eq, find?_cons_eq]
      · rw [find?_cons_ne _ v hj, find?_cons_ne _ v hj]
        exact ih

theorem find?_assign_self {κ ν : Type} [DecidableEq κ] (m : List (κ × ν)) (k : κ) (v : ν) :
    find? (assign m k v) k = some v :=
  find?_cons_eq _ k v

theorem find?_assign_ne {κ ν : Type} [DecidableEq κ] (m : List (κ × ν)) {k j : κ} (v : ν)
    (h : j ≠ k) : find? (assign m k v) j = find? m j := by
  unfold assign
  rw [find?_cons_ne _ v (Ne.symm h), find?_erase_ne m h]

theorem erase_of_find?_none {κ ν : Type} [DecidableEq κ] (m : List (κ × ν)) (k : κ)
    (h : find? m k = none) : erase m k = m := by
  induction m with
  | nil => rfl
  | cons p rest ih =>
    obtain ⟨k', v⟩ := p
    by_cases hk : k' = k
    · subst hk
      rw [find?_cons_eq] at h
      exact absurd h (by simp)
    · rw [find?_cons_ne rest v hk] at h
      rw [erase_cons_ne rest v hk, ih h]

theorem length_erase_le {κ ν : Type} [DecidableEq κ] (m : List (κ × ν)) (k : κ) :
    (erase m k).length ≤ m.length :=
  List.length_filter_le _ _

theorem length_erase_lt {κ ν : Type} [DecidableEq κ] (m : List (κ × ν)) (k : κ) (v : ν)
    (h : find? m k = some v) : (erase m k).length < m.length := by
  induction m with
  | nil => exact absurd h (by simp [find?])
  | cons p rest ih =>
    obtain ⟨k', v'⟩ := p
    by_cases hk : k' = k
    · subst hk
      rw [erase_cons_eq]
      have := length_erase_le rest k'
      simp only [List.length_cons]
      omega
    · rw [find?_cons_ne rest v' hk] at h
      rw [erase_cons_ne rest v' hk]
      have := ih h
      simp only [List.length_cons]
      omega

end UMap

/-! ## The dependency graph -/

namespace DependencyManager

theorem Reaches.trans {d : List (ThreadId × ThreadId)} {x y z : ThreadId}
    (hxy : Reaches d x y) (hyz : Reaches d y z) : Reaches d x z := by
  induction hxy with
  | edge h => exact Reaches.step h hyz
  | step h _ ih => exact Reaches.step h (ih hyz)

/-- The first edge of a path is the recorded edge of its source. -/
theorem Reaches.first {d : List (ThreadId × ThreadId)} {x z : ThreadId}
    (h : Reaches d x z) : ∃ y, UMap.find? d x = some y ∧ (y = z ∨ Reaches d y z) := by
  cases h with
  | edge h => exact ⟨_, h, Or.inl rfl⟩
  | step h h' => exact ⟨_, h, Or.inr h'⟩

/-- Paths only use recorded edges, so they survive any change of the map that keeps
the edges they use. -/
theorem Reaches.mono {d d' : List (ThreadId × ThreadId)}
    (hsub : ∀ x y, UMap.find? d x = some y → UMap.find? d' x = some y) {x z : ThreadId}
    (h : Reaches d x z) : Reaches d' x z := by
  induction h with
  | edge h => exact Reaches.edge (hsub _ _ h)
  | step h _ ih => exact Reaches.step (hsub _ _ h) ih

theorem walk_succ (d : List (ThreadId × ThreadId)) (c : ThreadId) (fuel : Nat)
    (x : ThreadId) :
    walk d c (fuel + 1) x =
      match UMap.find? d x with
      | none => some true
      | some next => if next = c then some false else walk d c fuel next := rfl

/-- A walk that ends with `return false` has found a path to the caller. -/
theorem walk_false_reaches (d : List (ThreadId × ThreadId)) (c : ThreadId) :
    ∀ (fuel : Nat) (x : ThreadId), walk d c fuel x = some false → Reaches d x c := by
  intro fuel
  induction fuel with
  | zero => intro x h; simp [walk] at h
  | succ n ih =>
    intro x h
    rw [walk_succ] at h
    cases hx : UMap.find? d x with
    | none => rw [hx] at h; simp at h
    | some y =>
      rw [hx] at h
      by_cases hy : y = c
      · subst hy; exact Reaches.edge hx
      · simp only [hy, if_false] at h
        exact Reaches.step hx (ih y h)

/-- A walk that leaves the loop normally has met no path to the caller. -/
theorem walk_true_not_reaches (d : List (ThreadId × ThreadId)) (c : ThreadId) :
    ∀ (fuel : Nat) (x : ThreadId), walk d c fuel x = some true → ¬ Reaches d x c := by
  intro fuel
  induction fuel with
  | zero => intro x h; simp [walk] at h
  | succ n ih =>
    intro x h hr
    rw [walk_succ] at h
    obtain ⟨y, hxy, hy⟩ := hr.first
    rw [hxy] at h
    by_cases hyc : y = c
    · simp [hyc] at h
    · simp only [hyc, if_false] at h
      rcases hy with hy | hy
      · exact hyc hy
      · exact ih y h hy

/-- More fuel does not change a result. -/
theorem walk_mono (d : List (ThreadId × ThreadId)) (c : ThreadId) :
    ∀ (fuel : Nat) (x : ThreadId) (b : Bool), walk d c fuel x = some b →
      ∀ fuel', fuel ≤ fuel' → walk d c fuel' x = some b := by
  intro fuel
  induction fuel with
  | zero => intro x b h; simp [walk] at h
  | succ n ih =>
    intro x b h fuel' hle
    obtain ⟨m, rfl⟩ : ∃ m, fuel' = m + 1 := ⟨fuel' - 1, by omega⟩
    rw [walk_succ] at h ⊢
    cases hx : UMap.find? d x with
    | none => rw [hx] at h; exact h
    | some y =>
      rw [hx] at h
      by_cases hy : y = c
      · simpa [hy] using h
      · simp only [hy, if_false] at h ⊢
        exact ih y b h m (by omega)

/-- Erasing a key that the walk cannot come back to does not change the walk. -/
theorem walk_erase (d : List (ThreadId × ThreadId)) (c k : ThreadId) :
    ∀ (fuel : Nat) (x : ThreadId), x ≠ k → ¬ Reaches d x k →
      walk (UMap.erase d k) c fuel x = walk d c fuel x := by
  intro fuel
  induction fuel with
  | zero => intro x _ _; rfl
  | succ n ih =>
    intro x hxk hr
    rw [walk_succ, walk_succ, UMap.find?_erase_ne d hxk]
    cases hx : UMap.find? d x with
    | none => rfl
    | some y =>
      by_cases hy : y = c
      · simp [hy]
      · simp only [hy, if_false]
        have hyk : y ≠ k := fun e => hr (e ▸ Reaches.edge hx)
        exact ih y hyk (fun h => hr (Reaches.step hx h))

/-- A finished walk either never comes to the key `k`, and then erasing `k` changes no
walk from the same start, or it comes to `k` with the same result still ahead. -/
theorem walk_avoids_or_passes (d : List (ThreadId × ThreadId)) (c k : ThreadId) (b : Bool) :
    ∀ (fuel : Nat) (x : ThreadId), walk d c fuel x = some b →
      (∀ g, walk (UMap.erase d k) c g x = walk d c g x) ∨
      (∃ f, f ≤ fuel ∧ walk d c f k = some b) := by
  intro fuel
  induction fuel with
  | zero => intro x h; simp [walk] at h
  | succ n ih =>
    intro x h
    by_cases hxk : x = k
    · subst hxk
      exact Or.inr ⟨n + 1, le_rfl, h⟩
    · rw [walk_succ] at h
      cases hx : UMap.find? d x with
      | none =>
        left
        intro g
        cases g with
        | zero => rfl
        | succ g => rw [walk_succ, walk_succ, UMap.find?_erase_ne d hxk, hx]
      | some y =>
        rw [hx] at h
        by_cases hy : y = c
        · left
          intro g
          cases g with
          | zero => rfl
          | succ g =>
            rw [walk_succ, walk_succ, UMap.find?_erase_ne d hxk, hx]
            simp [hy]
        · simp only [hy, if_false] at h
          rcases ih y h with hl | ⟨f, hf, hw⟩
          · left
            intro g
            cases g with
            | zero => rfl
            | succ g =>
              rw [walk_succ, walk_succ, UMap.find?_erase_ne d hxk, hx]
              simp only [hy, if_false]
              exact hl g
          · exact Or.inr ⟨f, by omega, hw⟩

/-- The fuel `dependencies.length + 1` is enough: a walk that finishes with any fuel
finishes with this one, with the same result.  So `none` in `set_thread_dependency` stands
for a loop that never ends. -/
theorem walk_fuel_enough (c : ThreadId) (b : Bool) :
    ∀ (n : Nat) (d : List (ThreadId × ThreadId)), d.length ≤ n →
      ∀ (fuel : Nat) (x : ThreadId), walk d c fuel x = some b →
        walk d c (n + 1) x = some b := by
  intro n
  induction n with
  | zero =>
    intro d hd fuel x h
    have hnil : d = [] := List.length_eq_zero.mp (by omega)
    subst hnil
    cases fuel with
    | zero => simp [walk] at h
    | succ f => simpa [walk, UMap.find?] using h
  | succ n ih =>
    intro d hd fuel
    induction fuel using Nat.strong_induction_on with
    | _ fuel ihf =>
      intro x h
      cases fuel with
      | zero => simp [walk] at h
      | succ f =>
        have h0 := h
        rw [walk_succ] at h ⊢
        cases hx : UMap.find? d x with
        | none => rw [hx] at h; exact h
        | some y =>
          rw [hx] at h
          by_cases hy : y = c
          · simpa [hy] using h
          · simp only [hy, if_false] at h ⊢
            rcases walk_avoids_or_passes d c x b f y h with hl | ⟨f', hf', hw⟩
            · have hlen : (UMap.erase d x).length ≤ n := by
                have := UMap.length_erase_lt d x y hx
                omega
              have h1 : walk (UMap.erase d x) c f y = some b := by rw [hl f]; exact h
              have h2 := ih (UMap.erase d x) hlen f y h1
              rw [hl (n + 1)] at h2
              exact h2
            · have h3 := ihf f' (by omega) x hw
              rw [walk_succ, hx] at h3
              simpa [hy] using h3

theorem acyclic_erase {d : List (ThreadId × ThreadId)} (h : Acyclic d) (k : ThreadId) :
    Acyclic (UMap.erase d k) := by
  intro x hx
  refine h x (Reaches.mono ?_ hx)
  intro a b hab
  by_cases hak : a = k
  · subst hak
    rw [UMap.find?_erase_self] at hab
    exact absurd hab (by simp)
  · rwa [UMap.find?_erase_ne d hak] at hab

/-- On an acyclic map the loop finishes within as many iterations as the map has
entries. -/
theorem walk_terminates (c : ThreadId) :
    ∀ (n : Nat) (d : List (ThreadId × ThreadId)), d.length ≤ n → Acyclic d →
      ∀ x, ∃ b, walk d c (n + 1) x = some b := by
  intro n
  induction n with
  | zero =>
    intro d hd _ x
    have hnil : d = [] := List.length_eq_zero.mp (by omega)
    subst hnil
    exact ⟨true, rfl⟩
  | succ n ih =>
    intro d hd hac x
    rw [walk_succ]
    cases hx : UMap.find? d x with
    | none => exact ⟨true, rfl⟩
    | some y =>
      by_cases hy : y = c
      · exact ⟨false, by simp [hy]⟩
      · simp only [hy, if_false]
        have hyx : y ≠ x := fun e => hac x (by rw [e] at hx; exact Reaches.edge hx)
        have hnr : ¬ Reaches d y x := fun h => hac x (Reaches.step hx h)
        have hlen : (UMap.erase d x).length ≤ n := by
          have := UMap.length_erase_lt d x y hx
          omega
        obtain ⟨b, hb⟩ := ih (UMap.erase d x) hlen (acyclic_erase hac x) y
        rw [walk_erase d c x (n + 1) y hyx hnr] at hb
        exact ⟨b, hb⟩

/-- A map whose edges all go from a smaller to a larger thread identifier is acyclic. -/
theorem acyclic_of_increasing (d : List (ThreadId × ThreadId))
    (h : ∀ x y, UMap.find? d x = some y → x < y) : Acyclic d := by
  have key : ∀ x y, Reaches d x y → x < y := by
    intro x y hr
    induction hr with
    | edge he => exact h _ _ he
    | step he _ ih => exact lt_trans (h _ _ he) ih
  intro x hx
  exact lt_irrefl x (key x x hx)

/-- What a call of `set_thread_dependency` that returns true has done. -/
theorem set_thread_dependency_true_eq (dm dm' : DependencyManager) (c t : ThreadId)
    (h : set_thread_dependency dm c t = some (true, dm')) :
    c ≠ t ∧ ¬ Reaches dm.dependencies t c ∧
    dm' = ⟨UMap.assign dm.dependencies c t⟩ := by
  unfold set_thread_dependency at h
  split_ifs at h with hc
  · simp at h
  · cases hw : walk dm.dependencies c (dm.dependencies.length + 1) t with
    | none => rw [hw] at h; simp at h
    | some b =>
      rw [hw] at h
      cases b with
      | false => simp at h
      | true =>
        simp only [Option.some.injEq, Prod.mk.injEq, true_and] at h
        exact ⟨hc, walk_true_not_reaches _ _ _ _ hw, h.symm⟩

/-- What a call of `set_thread_dependency` that returns false has found and done. -/
theorem set_thread_dependency_false_eq (dm dm' : DependencyManager) (c t : ThreadId)
    (h : set_thread_dependency dm c t = some (false, dm')) :
    (c = t ∨ Reaches dm.dependencies t c) ∧ dm' = dm := by
  unfold set_thread_dependency at h
  split_ifs at h with hc
  · simp only [Option.some.injEq, Prod.mk.injEq, true_and] at h
    exact ⟨Or.inl hc, h.symm⟩
  · cases hw : walk dm.dependencies c (dm.dependencies.length + 1) t with
    | none => rw [hw] at h; simp at h
    | some b =>
      rw [hw] at h
      cases b with
      | true => simp at h
      | false =>
        simp only [Option.some.injEq, Prod.mk.injEq, true_and] at h
        exact ⟨Or.inr (walk_false_reaches _ _ _ _ hw), h.symm⟩

/-- On an acyclic map `set_thread_dependency` returns, and its result is decided by
whether the caller is the target or is reached from it. -/
theorem set_thread_dependency_acyclic (dm : DependencyManager) (c t : ThreadId)
    (hac : Acyclic dm.dependencies) :
    ((c = t ∨ Reaches dm.dependencies t c) ∧
      set_thread_dependency dm c t = some (false, dm)) ∨
    (¬ (c = t ∨ Reaches dm.dependencies t c) ∧
      set_thread_dependency dm c t = some (true, ⟨UMap.assign dm.dependencies c t⟩)) := by
  by_cases hct : c = t
  · exact Or.inl ⟨Or.inl hct, by simp [set_thread_dependency, hct]⟩
  · obtain ⟨b, hb⟩ := walk_terminates c dm.dependencies.length dm.dependencies le_rfl hac t
    cases b with
    | false =>
      exact Or.inl ⟨Or.inr (walk_false_reaches _ _ _ _ hb),
        by simp [set_thread_dependency, hct, hb]⟩
    | true =>
      refine Or.inr ⟨?_, by simp [set_thread_dependency, hct, hb]⟩
      rintro (h | h)
      · exact hct h
      · exact walk_true_not_reaches _ _ _ _ hb h

/-- A path of the map after `dependencies[c] = t` is a path of the map before, or it
goes through the new edge. -/
theorem reaches_assign (d : List (ThreadId × ThreadId)) (c t : ThreadId) {x y : ThreadId}
    (h : Reaches (UMap.assign d c t) x y) :
    Reaches d x y ∨ ((x = c ∨ Reaches d x c) ∧ (y = t ∨ Reaches d t y)) := by
  induction h with
  | @edge x y he =>
    by_cases hx : x = c
    · subst hx
      rw [UMap.find?_assign_self] at he
      exact Or.inr ⟨Or.inl rfl, Or.inl (Option.some.inj he).symm⟩
    · rw [UMap.find?_assign_ne d t hx] at he
      exact Or.inl (Reaches.edge he)
  | @step x y z he _ ih =>
    by_cases hx : x = c
    · subst hx
      rw [UMap.find?_assign_self] at he
      have hy : y = t := (Option.some.inj he).symm
      subst hy
      rcases ih with ih | ih
      · exact Or.inr ⟨Or.inl rfl, Or.inr ih⟩
      · exact Or.inr ⟨Or.inl rfl, ih.2⟩
    · rw [UMap.find?_assign_ne d t hx] at he
      rcases ih with ih | ih
      · exact Or.inl (Reaches.step he ih)
      · refine Or.inr ⟨Or.inr ?_, ih.2⟩
        rcases ih.1 with h1 | h1
        · exact Reaches.edge (h1 ▸ he)
        · exact Reaches.step he h1

/-- Recording an edge that `set_thread_dependency` accepts keeps the map acyclic. -/
theorem acyclic_assign {d : List (ThreadId × ThreadId)} (hac : Acyclic d) (c t : ThreadId)
    (hct : c ≠ t) (hr : ¬ Reaches d t c) : Acyclic (UMap.assign d c t) := by
  intro x hx
  rcases reaches_assign d c t hx with h | ⟨h1, h2⟩
  · exact hac x h
  · rcases h1 with h1 | h1 <;> rcases h2 with h2 | h2
    · exact hct (h1.symm.trans h2)
    · exact hr (h1 ▸ h2)
    · exact hr (h2 ▸ h1)
    · exact hr (h2.trans h1)

theorem acyclic_nil : Acyclic [] := by
  intro x hx
  obtain ⟨y, hy, _⟩ := hx.first
  simp [UMap.find?] at hy

/-- C1: on an acyclic dependency map, `set_thread_dependency(t)` called by `c` returns,
and it returns false if and only if `c = t` or `c` is reached from `t` along one or more
recorded edges; in every other case it returns true. -/
theorem set_thread_dependency_false_iff (d : List (ThreadId × ThreadId)) (c t : ThreadId)
    (hac : Acyclic d) :
    ∃ b dm, set_thread_dependency ⟨d⟩ c t = some (b, dm) ∧
      (b = false ↔ (c = t ∨ Reaches d t c)) ∧
      (b = true ↔ ¬ (c = t ∨ Reaches d t c)) := by
  rcases set_thread_dependency_acyclic ⟨d⟩ c t hac with ⟨hp, h⟩ | ⟨hp, h⟩
  · exact ⟨false, _, h, ⟨fun _ => hp, fun _ => rfl⟩,
      ⟨fun hb => absurd hb (by simp), fun hn => absurd hp hn⟩⟩
  · exact ⟨true, _, h, ⟨fun hb => absurd hb (by simp), fun hq => absurd hq hp⟩,
      ⟨fun _ => hp, fun _ => rfl⟩⟩

/-- C1 at the chain `1 → 2 → 3`, caller `3`, target `1`. -/
theorem set_thread_dependency_false_iff_witness :
    Acyclic [(1, 2), (2, 3)] ∧
    ∃ b dm, set_thread_dependency ⟨[(1, 2), (2, 3)]⟩ 3 1 = some (b, dm) ∧
      (b = false ↔ (3 = 1 ∨ Reaches [(1, 2), (2, 3)] 1 3)) ∧
      (b = true ↔ ¬ (3 = 1 ∨ Reaches [(1, 2), (2, 3)] 1 3)) :=
  have hac : Acyclic [(1, 2), (2, 3)] :=
    acyclic_of_increasing _ (by
      intro x y h
      simp only [UMap.find?] at h
      split_ifs at h with h1 h2
      · cases h; subst h1; decide
      · cases h; subst h2; decide)
  ⟨hac, set_thread_dependency_false_iff [(1, 2), (2, 3)] 3 1 hac⟩

end DependencyManager

/-! ## Chains of recorded edges -/

namespace DependencyManager

theorem mem_keys_of_find? {κ ν : Type} [DecidableEq κ] (m : List (κ × ν)) (k : κ) (v : ν)
    (h : UMap.find? m k = some v) : k ∈ m.map Prod.fst := by
  induction m with
  | nil => exact absurd h (by simp [UMap.find?])
  | cons p rest ih =>
    obtain ⟨k', v'⟩ := p
    by_cases hk : k' = k
    · simp [hk]
    · rw [UMap.find?_cons_ne rest v' hk] at h
      simp [ih h]

/-- Every thread of a chain but the last is a key of the map. -/
theorem chain_keys (d : List (ThreadId × ThreadId)) :
    ∀ (rest : List ThreadId) (t1 : ThreadId),
      List.Chain (fun a b => UMap.find? d a = some b) t1 rest →
      ∀ x ∈ (t1 :: rest).dropLast, x ∈ d.map Prod.fst := by
  intro rest
  induction rest with
  | nil => intro t1 _ x hx; simp at hx
  | cons t2 rest ih =>
    intro t1 hch x hx
    rw [List.chain_cons] at hch
    rw [List.dropLast_cons₂, List.mem_cons] at hx
    rcases hx with hx | hx
    · subst hx
      exact mem_keys_of_find? d _ _ hch.1
    · exact ih t2 hch.2 x hx

/-- A chain of distinct threads is no longer than the map has entries, plus one. -/
theorem chain_length_le (d : List (ThreadId × ThreadId)) (t1 : ThreadId)
    (rest : List ThreadId) (hch : List.Chain (fun a b => UMap.find? d a = some b) t1 rest)
    (hnd : (t1 :: rest).Nodup) : rest.length ≤ d.length := by
  have hsub : (t1 :: rest).dropLast ⊆ d.map Prod.fst := chain_keys d rest t1 hch
  have hnd' : ((t1 :: rest).dropLast).Nodup := hnd.sublist (List.dropLast_sublist _)
  have := (hnd'.subperm hsub).length_le
  simpa using this

/-- The walk along a chain that ends at the caller ends with `return false`. -/
theorem walk_chain (d : List (ThreadId × ThreadId)) (c : ThreadId) :
    ∀ (rest : List ThreadId) (t1 : ThreadId) (fuel : Nat),
      List.Chain (fun a b => UMap.find? d a = some b) t1 rest →
      rest.getLast? = some c → rest.length ≤ fuel →
      walk d c fuel t1 = some false := by
  intro rest
  induction rest with
  | nil => intro t1 fuel _ hl; simp at hl
  | cons t2 rest ih =>
    intro t1 fuel hch hl hf
    rw [List.chain_cons] at hch
    obtain ⟨f, rfl⟩ : ∃ f, fuel = f + 1 := ⟨fuel - 1, by simp at hf; omega⟩
    rw [walk_succ, hch.1]
    by_cases h2 : t2 = c
    · simp [h2]
    · simp only [h2, if_false]
      have hl' : rest.getLast? = some c := by
        cases rest with
        | nil => simp at hl; exact absurd hl h2
        | cons t3 rest' => simpa [List.getLast?_cons_cons] using hl
      exact ih t2 f hch.2 hl' (by simp at hf; omega)

end DependencyManager

/-! ## The coordinator -/

namespace LockManager

/-- C3: when the owner map records the calling thread as the owner of `id`, `safe_lock`
returns false without waiting, whatever the dependency map contains, with the
coordinator and the underlying mutex as they were, and `SmartMutex::lock` calls
`std::terminate`. -/
theorem safe_lock_self_owner (lm : LockManager) (c : ThreadId) (id : SmartMutexID)
    (mx : StdMutex) (hown : UMap.find? lm.current_mutex_owner id = some c) :
    lm.safe_lock c id mx = some (.returned false, lm, mx) ∧
    SmartMutex.lock lm c ⟨mx, id⟩ = some (.terminated, lm, ⟨mx, id⟩) := by
  have h : lm.safe_lock c id mx = some (.returned false, lm, mx) := by
    unfold safe_lock
    rw [hown]
    simp [DependencyManager.set_thread_dependency]
  refine ⟨h, ?_⟩
  unfold SmartMutex.lock
  simp only [h]

/-- C3 at a coordinator whose dependency map holds the cycle `2 → 3 → 2`: thread `1`
locks the identity it owns a second time. -/
theorem safe_lock_self_owner_witness :
    UMap.find? (LockManager.mk ⟨[(2, 3), (3, 2)]⟩ [] [(⟨7⟩, 1)]).current_mutex_owner ⟨7⟩
      = some 1 ∧
    (LockManager.mk ⟨[(2, 3), (3, 2)]⟩ [] [(⟨7⟩, 1)]).safe_lock 1 ⟨7⟩ true
      = some (.returned false, LockManager.mk ⟨[(2, 3), (3, 2)]⟩ [] [(⟨7⟩, 1)], true) ∧
    SmartMutex.lock (LockManager.mk ⟨[(2, 3), (3, 2)]⟩ [] [(⟨7⟩, 1)]) 1 ⟨true, ⟨7⟩⟩
      = some (.terminated, LockManager.mk ⟨[(2, 3), (3, 2)]⟩ [] [(⟨7⟩, 1)], ⟨true, ⟨7⟩⟩) :=
  ⟨rfl, safe_lock_self_owner (LockManager.mk ⟨[(2, 3), (3, 2)]⟩ [] [(⟨7⟩, 1)]) 1 ⟨7⟩ true rfl⟩

/-- C2: for distinct threads `T1, ..., TN` with `N ≥ 2`, when the owner map records `T1`
as the owner of `id` and the dependency map holds the edges `T1 → T2, ..., T(N-1) → TN`,
`safe_lock(id, .)` called by `TN` returns false without waiting, with the coordinator
and the underlying mutex as they were, and `SmartMutex::lock` calls `std::terminate`. -/
theorem safe_lock_ring (lm : LockManager) (id : SmartMutexID) (mx : StdMutex)
    (t1 : ThreadId) (rest : List ThreadId) (tn : ThreadId)
    (hn : 2 ≤ (t1 :: rest).length) (hnd : (t1 :: rest).Nodup)
    (hlast : (t1 :: rest).getLast? = some tn)
    (hown : UMap.find? lm.current_mutex_owner id = some t1)
    (hch : List.Chain
      (fun a b => UMap.find? lm.dependency_manager.dependencies a = some b) t1 rest) :
    lm.safe_lock tn id mx = some (.returned false, lm, mx) ∧
    SmartMutex.lock lm tn ⟨mx, id⟩ = some (.terminated, lm, ⟨mx, id⟩) := by
  have hlast' : rest.getLast? = some tn := by
    cases rest with
    | nil => simp at hn
    | cons t2 rest' => simpa [List.getLast?_cons_cons] using hlast
  have hlen := DependencyManager.chain_length_le _ t1 rest hch hnd
  have hw := DependencyManager.walk_chain lm.dependency_manager.dependencies tn rest t1
    (lm.dependency_manager.dependencies.length + 1) hch hlast' (by omega)
  have h : lm.safe_lock tn id mx = some (.returned false, lm, mx) := by
    unfold safe_lock
    rw [hown]
    unfold DependencyManager.set_thread_dependency
    by_cases hc : tn = t1
    · simp [hc]
    · simp [hc, hw]
  refine ⟨h, ?_⟩
  unfold SmartMutex.lock
  simp only [h]

/-- C2 at the ring of the test, `N = 8`: thread `1` owns the identity, the edges
`1 → 2 → ... → 8` are recorded, and thread `8` calls `safe_lock`. -/
theorem safe_lock_ring_witness :
    (LockManager.mk ⟨[(1, 2), (2, 3), (3, 4), (4, 5), (5, 6), (6, 7), (7, 8)]⟩ []
        [(⟨100⟩, 1)]).safe_lock 8 ⟨100⟩ true
      = some (.returned false,
          LockManager.mk ⟨[(1, 2), (2, 3), (3, 4), (4, 5), (5, 6), (6, 7), (7, 8)]⟩ []
            [(⟨100⟩, 1)], true) ∧
    SmartMutex.lock
        (LockManager.mk ⟨[(1, 2), (2, 3), (3, 4), (4, 5), (5, 6), (6, 7), (7, 8)]⟩ []
          [(⟨100⟩, 1)]) 8 ⟨true, ⟨100⟩⟩
      = some (.terminated,
          LockManager.mk ⟨[(1, 2), (2, 3), (3, 4), (4, 5), (5, 6), (6, 7), (7, 8)]⟩ []
            [(⟨100⟩, 1)], ⟨true, ⟨100⟩⟩) :=
  safe_lock_ring
    (LockManager.mk ⟨[(1, 2), (2, 3), (3, 4), (4, 5), (5, 6), (6, 7), (7, 8)]⟩ []
      [(⟨100⟩, 1)])
    ⟨100⟩ true 1 [2, 3, 4, 5, 6, 7, 8] 8 (by decide) (by decide) rfl rfl
    (by simp [UMap.find?])

end LockManager

namespace LockManager

/-- What a pass of `safe_lock` that returns true has done. -/
theorem safe_lock_true_eq (lm lm' : LockManager) (c : ThreadId) (id : SmartMutexID)
    (mx mx' : StdMutex) (h : lm.safe_lock c id mx = some (.returned true, lm', mx')) :
    UMap.find? lm.current_mutex_owner id = none ∧ mx = false ∧ mx' = true ∧
    lm' = ⟨lm.dependency_manager.clear_thread_dependency c, lm.lock_manager_CVs,
      UMap.assign lm.current_mutex_owner id c⟩ := by
  unfold safe_lock at h
  cases hown : UMap.find? lm.current_mutex_owner id with
  | some o =>
    rw [hown] at h
    simp only at h
    cases hs : lm.dependency_manager.set_thread_dependency c o with
    | none => rw [hs] at h; simp at h
    | some p =>
      obtain ⟨b, dm⟩ := p
      rw [hs] at h
      cases b <;> simp at h
  | none =>
    rw [hown] at h
    simp only at h
    cases mx with
    | true => simp at h
    | false =>
      simp only [Bool.false_eq_true, if_false, Option.some.injEq, Prod.mk.injEq,
        true_and] at h
      exact ⟨rfl, rfl, h.2.symm, h.1.symm⟩

/-- What a pass of `safe_lock` that returns false has done. -/
theorem safe_lock_false_eq (lm lm' : LockManager) (c : ThreadId) (id : SmartMutexID)
    (mx mx' : StdMutex) (h : lm.safe_lock c id mx = some (.returned false, lm', mx')) :
    lm' = lm ∧ mx' = mx ∧
    ∃ o, UMap.find? lm.current_mutex_owner id = some o ∧
      lm.dependency_manager.set_thread_dependency c o = some (false, lm.dependency_manager) := by
  unfold safe_lock at h
  cases hown : UMap.find? lm.current_mutex_owner id with
  | some o =>
    rw [hown] at h
    simp only at h
    cases hs : lm.dependency_manager.set_thread_dependency c o with
    | none => rw [hs] at h; simp at h
    | some p =>
      obtain ⟨b, dm⟩ := p
      rw [hs] at h
      cases b with
      | true => simp at h
      | false =>
        simp only [Option.some.injEq, Prod.mk.injEq, true_and] at h
        have hdm : dm = lm.dependency_manager := by
          unfold DependencyManager.set_thread_dependency at hs
          split_ifs at hs with hc
          · simp only [Option.some.injEq, Prod.mk.injEq, true_and] at hs
            exact hs.symm
          · split at hs <;> simp at hs
            exact hs.symm
        subst hdm
        exact ⟨h.1.symm, h.2.symm, o, rfl, hs⟩
  | none =>
    rw [hown] at h
    simp only at h
    cases mx <;> simp at h

/-- What a pass of `safe_lock` that ends in `wait` has done. -/
theorem safe_lock_waiting_eq (lm lm' : LockManager) (c : ThreadId) (id : SmartMutexID)
    (mx mx' : StdMutex) (h : lm.safe_lock c id mx = some (.waiting, lm', mx')) :
    mx' = mx ∧
    ∃ o dm, UMap.find? lm.current_mutex_owner id = some o ∧
      lm.dependency_manager.set_thread_dependency c o = some (true, dm) ∧
      lm' = ⟨dm, UMap.subscript lm.lock_manager_CVs id (), lm.current_mutex_owner⟩ := by
  unfold safe_lock at h
  cases hown : UMap.find? lm.current_mutex_owner id with
  | some o =>
    rw [hown] at h
    simp only at h
    cases hs : lm.dependency_manager.set_thread_dependency c o with
    | none => rw [hs] at h; simp at h
    | some p =>
      obtain ⟨b, dm⟩ := p
      rw [hs] at h
      cases b with
      | false => simp at h
      | true =>
        simp only [Option.some.injEq, Prod.mk.injEq, true_and] at h
        exact ⟨h.2.symm, o, dm, rfl, hs, h.1.symm⟩
  | none =>
    rw [hown] at h
    simp only at h
    cases mx <;> simp at h

/-- C6: whenever a pass of `safe_lock(id, .)` by thread `c` returns true, the resulting
coordinator records `c` as the owner of `id` and holds no outgoing dependency edge for
`c`. -/
theorem safe_lock_true_state (lm lm' : LockManager) (c : ThreadId) (id : SmartMutexID)
    (mx mx' : StdMutex) (h : lm.safe_lock c id mx = some (.returned true, lm', mx')) :
    UMap.find? lm'.current_mutex_owner id = some c ∧
    UMap.find? lm'.dependency_manager.dependencies c = none := by
  obtain ⟨_, _, _, hlm⟩ := safe_lock_true_eq lm lm' c id mx mx' h
  subst hlm
  exact ⟨UMap.find?_assign_self _ _ _, UMap.find?_erase_self _ _⟩

/-- C6 at a pass after a wake-up: thread `1` still has the edge `1 → 2` of its earlier
wait, identity `7` has no owner any more. -/
theorem safe_lock_true_state_witness :
    (LockManager.mk ⟨[(1, 2), (4, 5)]⟩ [(⟨7⟩, ())] [(⟨9⟩, 4)]).safe_lock 1 ⟨7⟩ false
      = some (.returned true,
          LockManager.mk ⟨[(4, 5)]⟩ [(⟨7⟩, ())] [(⟨7⟩, 1), (⟨9⟩, 4)], true) ∧
    UMap.find? (LockManager.mk ⟨[(4, 5)]⟩ [(⟨7⟩, ())]
      [(⟨7⟩, 1), (⟨9⟩, 4)]).current_mutex_owner ⟨7⟩ = some 1 ∧
    UMap.find? (LockManager.mk ⟨[(4, 5)]⟩ [(⟨7⟩, ())]
      [(⟨7⟩, 1), (⟨9⟩, 4)]).dependency_manager.dependencies 1 = none :=
  ⟨rfl, safe_lock_true_state (LockManager.mk ⟨[(1, 2), (4, 5)]⟩ [(⟨7⟩, ())] [(⟨9⟩, 4)])
    (LockManager.mk ⟨[(4, 5)]⟩ [(⟨7⟩, ())] [(⟨7⟩, 1), (⟨9⟩, 4)]) 1 ⟨7⟩ false true rfl⟩

/-- C8: `try_lock(id, m)` is a total function with no waiting outcome; its result does
not depend on the dependency map, which it returns unchanged together with the
wait-channel map.  On a free mutex it returns true, locks it and binds `id` to the caller
in the owner map, every other owner entry being as before; on a held mutex it returns
false and the coordinator and the mutex are exactly as they were. -/
theorem try_lock_frame (lm : LockManager) (c : ThreadId) (id : SmartMutexID)
    (mx : StdMutex) (dm : DependencyManager) :
    (lm.try_lock c id mx).2.1.dependency_manager = lm.dependency_manager ∧
    (lm.try_lock c id mx).2.1.lock_manager_CVs = lm.lock_manager_CVs ∧
    (try_lock ⟨dm, lm.lock_manager_CVs, lm.current_mutex_owner⟩ c id mx).1
      = (lm.try_lock c id mx).1 ∧
    (try_lock ⟨dm, lm.lock_manager_CVs, lm.current_mutex_owner⟩ c id mx).2.1.current_mutex_owner
      = (lm.try_lock c id mx).2.1.current_mutex_owner ∧
    (try_lock ⟨dm, lm.lock_manager_CVs, lm.current_mutex_owner⟩ c id mx).2.1.dependency_manager
      = dm ∧
    (lm.try_lock c id false).1 = true ∧
    (lm.try_lock c id false).2.2 = true ∧
    (∀ j, UMap.find? (lm.try_lock c id false).2.1.current_mutex_owner j
      = if j = id then some c else UMap.find? lm.current_mutex_owner j) ∧
    lm.try_lock c id true = (false, lm, true) := by
  refine ⟨?_, ?_, ?_, ?_, ?_, rfl, rfl, ?_, rfl⟩
  · cases mx <;> rfl
  · cases mx <;> rfl
  · cases mx <;> rfl
  · cases mx <;> rfl
  · cases mx <;> rfl
  · intro j
    show UMap.find? (UMap.assign lm.current_mutex_owner id c) j = _
    by_cases hj : j = id
    · subst hj
      simp [UMap.find?_assign_self]
    · simp [hj, UMap.find?_assign_ne _ _ hj]

/-- C10: `unlock(id, m)` leaves the owner map with no entry for `id` and every other
owner entry as before, releases the underlying mutex, leaves the dependency map and the
wait-channel map unchanged, and issues `notify_one` exactly when a wait-channel entry for
`id` exists. -/
theorem unlock_frame (lm : LockManager) (id : SmartMutexID) (mx : StdMutex) :
    UMap.find? (lm.unlock id mx).2.1.current_mutex_owner id = none ∧
    (lm.unlock id mx).2.2 = false ∧
    (∀ j, UMap.find? (lm.unlock id mx).2.1.current_mutex_owner j
      = if j = id then none else UMap.find? lm.current_mutex_owner j) ∧
    (lm.unlock id mx).2.1.dependency_manager = lm.dependency_manager ∧
    (lm.unlock id mx).2.1.lock_manager_CVs = lm.lock_manager_CVs ∧
    ((lm.unlock id mx).1 = true ↔ ∃ u, UMap.find? lm.lock_manager_CVs id = some u) := by
  refine ⟨UMap.find?_erase_self _ _, rfl, ?_, rfl, rfl, ?_⟩
  · intro j
    show UMap.find? (UMap.erase lm.current_mutex_owner id) j = _
    by_cases hj : j = id
    · subst hj
      simp [UMap.find?_erase_self]
    · simp [hj, UMap.find?_erase_ne _ hj]
  · show UMap.contains lm.lock_manager_CVs id = true ↔ _
    unfold UMap.contains
    rw [Option.isSome_iff_exists]

end LockManager

/-! ## Runs of the coordinator -/

namespace World

theorem mem_set_mutex (l : List SmartMutexID) (id j : SmartMutexID) (mx : StdMutex) :
    j ∈ set_mutex l id mx ↔ (j = id ∧ mx = true) ∨ (j ≠ id ∧ j ∈ l) := by
  unfold set_mutex
  cases mx with
  | true =>
    by_cases hj : j = id
    · simp [hj]
    · simp [hj]
  | false =>
    by_cases hj : j = id
    · simp [hj]
    · simp [hj]

theorem mem_set_mutex_same (w : World) (id j : SmartMutexID) :
    j ∈ set_mutex w.locked id (w.mutex id) ↔ j ∈ w.locked := by
  rw [mem_set_mutex]
  unfold mutex
  by_cases hj : j = id
  · subst hj
    simp
  · simp [hj]

/-- The three ways a pass of `safe_lock` produces a successor world. -/
theorem safe_lock_pass_cases (w w' : World) (c : ThreadId) (id : SmartMutexID)
    (r : StepResult) (h : safe_lock_pass w c id = some (r, w')) :
    ∃ lm mx,
      (w.lock_manager.safe_lock c id (w.mutex id) = some (.waiting, lm, mx) ∧
        r = .safe_lock_waiting ∧
        w' = ⟨lm, set_mutex w.locked id mx, (c, id) :: w.waiting, w.holders,
          w.last_acquirer⟩) ∨
      (w.lock_manager.safe_lock c id (w.mutex id) = some (.returned false, lm, mx) ∧
        r = .safe_lock_returned false ∧
        w' = ⟨lm, set_mutex w.locked id mx, w.waiting, w.holders, w.last_acquirer⟩) ∨
      (w.lock_manager.safe_lock c id (w.mutex id) = some (.returned true, lm, mx) ∧
        r = .safe_lock_returned true ∧
        w' = ⟨lm, set_mutex w.locked id mx, w.waiting, (id, c) :: w.holders,
          UMap.assign w.last_acquirer id c⟩) := by
  unfold safe_lock_pass at h
  cases hs : w.lock_manager.safe_lock c id (w.mutex id) with
  | none => rw [hs] at h; simp at h
  | some p =>
    obtain ⟨o, lm, mx⟩ := p
    rw [hs] at h
    refine ⟨lm, mx, ?_⟩
    cases o with
    | blocked => simp at h
    | waiting =>
      simp only [Option.some.injEq, Prod.mk.injEq] at h
      exact Or.inl ⟨rfl, h.1.symm, h.2.symm⟩
    | returned b =>
      cases b with
      | false =>
        simp only [Option.some.injEq, Prod.mk.injEq] at h
        exact Or.inr (Or.inl ⟨rfl, h.1.symm, h.2.symm⟩)
      | true =>
        simp only [Option.some.injEq, Prod.mk.injEq] at h
        exact Or.inr (Or.inr ⟨rfl, h.1.symm, h.2.symm⟩)

/-- A pass of `safe_lock` returns true only on a free underlying mutex. -/
theorem safe_lock_pass_true_free (w w' : World) (c : ThreadId) (id : SmartMutexID)
    (h : safe_lock_pass w c id = some (.safe_lock_returned true, w')) :
    id ∉ w.locked := by
  obtain ⟨lm, mx, h1 | h1 | h1⟩ := safe_lock_pass_cases w w' c id _ h
  · exact absurd h1.2.1 (by simp)
  · exact absurd h1.2.1 (by simp)
  · obtain ⟨_, hm, _, _⟩ := LockManager.safe_lock_true_eq _ _ _ _ _ _ h1.1
    simpa [mutex] using hm

theorem holdersInv_acquire (w : World) (hinv : HoldersInv w) (lm : LockManager)
    (wt : List (ThreadId × SmartMutexID)) (c : ThreadId) (id : SmartMutexID)
    (hfree : id ∉ w.locked) :
    HoldersInv ⟨lm, set_mutex w.locked id true, wt, (id, c) :: w.holders,
      UMap.assign w.last_acquirer id c⟩ := by
  intro j c' hmem
  simp only [List.mem_cons, Prod.mk.injEq] at hmem
  rcases hmem with ⟨hj, hc⟩ | hmem
  · subst hj; subst hc
    exact ⟨(mem_set_mutex w.locked j j true).2 (Or.inl ⟨rfl, rfl⟩),
      UMap.find?_assign_self _ _ _⟩
  · obtain ⟨hl, hla⟩ := hinv j c' hmem
    have hne : j ≠ id := fun e => hfree (e ▸ hl)
    exact ⟨(mem_set_mutex w.locked id j true).2 (Or.inr ⟨hne, hl⟩),
      by simpa [UMap.find?_assign_ne _ _ hne] using hla⟩

theorem holdersInv_same (w : World) (hinv : HoldersInv w) (lm : LockManager)
    (wt : List (ThreadId × SmartMutexID)) (id : SmartMutexID) :
    HoldersInv ⟨lm, set_mutex w.locked id (w.mutex id), wt, w.holders,
      w.last_acquirer⟩ := by
  intro j c' hmem
  obtain ⟨hl, hla⟩ := hinv j c' hmem
  exact ⟨(mem_set_mutex_same w id j).2 hl, hla⟩

theorem holdersInv_safe_lock_pass (w w' : World) (hinv : HoldersInv w) (c : ThreadId)
    (id : SmartMutexID) (r : StepResult) (h : safe_lock_pass w c id = some (r, w')) :
    HoldersInv w' := by
  obtain ⟨lm, mx, h1 | h1 | h1⟩ := safe_lock_pass_cases w w' c id r h
  · obtain ⟨hmx, _⟩ := LockManager.safe_lock_waiting_eq _ _ _ _ _ _ h1.1
    rw [h1.2.2, hmx]
    exact holdersInv_same w hinv lm _ id
  · obtain ⟨_, hmx, _⟩ := LockManager.safe_lock_false_eq _ _ _ _ _ _ h1.1
    rw [h1.2.2, hmx]
    exact holdersInv_same w hinv lm _ id
  · obtain ⟨_, hm, hmx, _⟩ := LockManager.safe_lock_true_eq _ _ _ _ _ _ h1.1
    rw [h1.2.2, hmx]
    exact holdersInv_acquire w hinv lm _ c id (by simpa [mutex] using hm)

/-- A successful acquisition happens on a free underlying mutex. -/
theorem acquires_free (w w' : World) (a : Action) (r : StepResult) (c : ThreadId)
    (id : SmartMutexID) (h : step w a = some (r, w')) (hacq : Acquires a r c id) :
    id ∉ w.locked := by
  rcases hacq with ⟨ha, hr⟩ | ⟨ha, hr⟩ | ⟨ha, hr⟩
  · subst ha; subst hr
    simp only [step] at h
    split_ifs at h
    exact safe_lock_pass_true_free w w' c id h
  · subst ha; subst hr
    simp only [step] at h
    split_ifs at h
    have hfree := safe_lock_pass_true_free _ w' c id h
    exact hfree
  · subst ha; subst hr
    simp only [step] at h
    split_ifs at h
    cases hm : w.mutex id with
    | true => simp [LockManager.try_lock, hm] at h
    | false => simpa [mutex] using hm

theorem holdersInv_step (w w' : World) (hinv : HoldersInv w) (a : Action) (r : StepResult)
    (h : step w a = some (r, w')) : HoldersInv w' := by
  cases a with
  | safe_lock c id =>
    simp only [step] at h
    split_ifs at h
    exact holdersInv_safe_lock_pass w w' hinv c id r h
  | wake c id =>
    simp only [step] at h
    split_ifs at h
    refine holdersInv_safe_lock_pass _ w' ?_ c id r h
    exact hinv
  | try_lock c id =>
    simp only [step] at h
    split_ifs at h
    cases hm : w.mutex id with
    | true =>
      simp only [LockManager.try_lock, hm, if_true, Option.some.injEq, Prod.mk.injEq] at h
      rw [← h.2, ← hm]
      exact holdersInv_same w hinv _ _ id
    | false =>
      simp only [LockManager.try_lock, hm, Bool.false_eq_true, if_false, Option.some.injEq,
        Prod.mk.injEq] at h
      rw [← h.2]
      exact holdersInv_acquire w hinv _ _ c id (by simpa [mutex] using hm)
  | unlock c id =>
    simp only [step] at h
    split_ifs at h with hw hlast
    simp only [LockManager.unlock, Option.some.injEq, Prod.mk.injEq] at h
    rw [← h.2]
    intro j c' hmem
    simp only [List.mem_filter, decide_eq_true_eq] at hmem
    obtain ⟨hl, hla⟩ := hinv j c' hmem.1
    have hne : j ≠ id := by
      intro e
      subst e
      rw [hlast] at hla
      exact hmem.2 (by rw [Option.some.inj hla])
    exact ⟨(mem_set_mutex w.locked id j false).2 (Or.inr ⟨hne, hl⟩), hla⟩

theorem holdersInv_reachable (w : World) (hr : Reachable w) : HoldersInv w := by
  induction hr with
  | init => intro id c hmem; simp [empty] at hmem
  | next _ hs ih => exact holdersInv_step _ _ ih _ _ hs

theorem reachable_run (tr : List Action) :
    ∀ (w w' : World), Reachable w → run w tr = some w' → Reachable w' := by
  induction tr with
  | nil =>
    intro w w' hr h
    simp only [run, Option.some.injEq] at h
    exact h ▸ hr
  | cons a rest ih =>
    intro w w' hr h
    simp only [run] at h
    cases hs : step w a with
    | none => rw [hs] at h; simp at h
    | some p =>
      obtain ⟨r, w1⟩ := p
      rw [hs] at h
      exact ih w1 w' (Reachable.next hr hs) h

/-- C4: mutual exclusion.  In every world reachable from the empty one by steps of
`safe_lock`, `try_lock` and `unlock` (`unlock` of `id` only by the thread that last
acquired `id`), at most one thread has acquired a given identity and not yet released
it, and no step is a successful acquisition of `id` (`safe_lock` or `try_lock` returning
true) while some thread has acquired `id` and not yet released it. -/
theorem mutual_exclusion (w : World) (hr : Reachable w) :
    (∀ id c1 c2, (id, c1) ∈ w.holders → (id, c2) ∈ w.holders → c1 = c2) ∧
    (∀ a r w' c id, step w a = some (r, w') → Acquires a r c id →
      ∀ c', (id, c') ∉ w.holders) := by
  have hinv := holdersInv_reachable w hr
  refine ⟨?_, ?_⟩
  · intro id c1 c2 h1 h2
    have e1 := (hinv id c1 h1).2
    have e2 := (hinv id c2 h2).2
    rw [e1] at e2
    exact Option.some.inj e2
  · intro a r w' c id hs hacq c' hmem
    exact acquires_free w w' a r c id hs hacq (hinv id c' hmem).1

end World

namespace World

theorem stale_world_reachable : Reachable stale_world :=
  reachable_run
    [.safe_lock 1 ⟨20⟩, .safe_lock 2 ⟨10⟩, .safe_lock 1 ⟨10⟩, .unlock 2 ⟨10⟩]
    empty stale_world Reachable.init rfl

theorem crossed_world_reachable : Reachable crossed_world :=
  reachable_run [.safe_lock 3 ⟨10⟩, .safe_lock 3 ⟨20⟩]
    stale_world crossed_world stale_world_reachable rfl

/-- C4 at the world where thread 1 holds identity 20 and waits for identity 10: the
holders are unique, and as the wake-up of thread 1 acquires identity 10, nobody holds
identity 10 there. -/
theorem mutual_exclusion_witness :
    Reachable stale_world ∧
    (∀ id c1 c2, (id, c1) ∈ stale_world.holders → (id, c2) ∈ stale_world.holders →
      c1 = c2) ∧
    (∀ c', ((⟨10⟩ : SmartMutexID), c') ∉ stale_world.holders) :=
  ⟨stale_world_reachable, (mutual_exclusion stale_world stale_world_reachable).1,
    (mutual_exclusion stale_world stale_world_reachable).2 (.wake 1 ⟨10⟩)
      (.safe_lock_returned true)
      ⟨⟨⟨[]⟩, [(⟨10⟩, ())], [(⟨10⟩, 1), (⟨20⟩, 1)]⟩, [⟨10⟩, ⟨20⟩], [],
        [(⟨10⟩, 1), (⟨20⟩, 1)], [(⟨10⟩, 1), (⟨20⟩, 1)]⟩
      1 ⟨10⟩ rfl (Or.inr (Or.inl ⟨rfl, rfl⟩))⟩

theorem acyclic_safe_lock_pass (w w' : World) (c : ThreadId) (id : SmartMutexID)
    (r : StepResult)
    (hac : DependencyManager.Acyclic w.lock_manager.dependency_manager.dependencies)
    (h : safe_lock_pass w c id = some (r, w')) :
    DependencyManager.Acyclic w'.lock_manager.dependency_manager.dependencies := by
  obtain ⟨lm, mx, h1 | h1 | h1⟩ := safe_lock_pass_cases w w' c id r h
  · obtain ⟨_, o, dm, _, hs, hlm⟩ := LockManager.safe_lock_waiting_eq _ _ _ _ _ _ h1.1
    obtain ⟨hco, hnr, hdm⟩ := DependencyManager.set_thread_dependency_true_eq _ _ _ _ hs
    rw [h1.2.2, hlm, hdm]
    exact DependencyManager.acyclic_assign hac c o hco hnr
  · obtain ⟨hlm, _, _⟩ := LockManager.safe_lock_false_eq _ _ _ _ _ _ h1.1
    rw [h1.2.2, hlm]
    exact hac
  · obtain ⟨_, _, _, hlm⟩ := LockManager.safe_lock_true_eq _ _ _ _ _ _ h1.1
    rw [h1.2.2, hlm]
    exact DependencyManager.acyclic_erase hac c

theorem acyclic_step (w w' : World) (a : Action) (r : StepResult)
    (hac : DependencyManager.Acyclic w.lock_manager.dependency_manager.dependencies)
    (h : step w a = some (r, w')) :
    DependencyManager.Acyclic w'.lock_manager.dependency_manager.dependencies := by
  cases a with
  | safe_lock c id =>
    simp only [step] at h
    split_ifs at h
    exact acyclic_safe_lock_pass w w' c id r hac h
  | wake c id =>
    simp only [step] at h
    split_ifs at h
    refine acyclic_safe_lock_pass _ w' c id r ?_ h
    exact hac
  | try_lock c id =>
    simp only [step] at h
    split_ifs at h
    cases hm : w.mutex id with
    | true =>
      simp only [LockManager.try_lock, hm, if_true, Option.some.injEq, Prod.mk.injEq] at h
      rw [← h.2]
      exact hac
    | false =>
      simp only [LockManager.try_lock, hm, Bool.false_eq_true, if_false, Option.some.injEq,
        Prod.mk.injEq] at h
      rw [← h.2]
      exact hac
  | unlock c id =>
    simp only [step] at h
    split_ifs at h
    simp only [LockManager.unlock, Option.some.injEq, Prod.mk.injEq] at h
    rw [← h.2]
    exact hac

/-- The dependency map of every reachable world is acyclic. -/
theorem acyclic_reachable (w : World) (hr : Reachable w) :
    DependencyManager.Acyclic w.lock_manager.dependency_manager.dependencies := by
  induction hr with
  | init => exact DependencyManager.acyclic_nil
  | next _ hs ih => exact acyclic_step _ _ _ _ ih hs

/-- A pass of `safe_lock` that returns false has found the caller to be the recorded
owner or to be reached from the recorded owner along recorded edges. -/
theorem safe_lock_pass_false_recorded (w w' : World) (c : ThreadId) (id : SmartMutexID)
    (h : safe_lock_pass w c id = some (.safe_lock_returned false, w')) :
    ∃ o, UMap.find? w.lock_manager.current_mutex_owner id = some o ∧
      (c = o ∨ DependencyManager.Reaches w.lock_manager.dependency_manager.dependencies o c) := by
  obtain ⟨lm, mx, h1 | h1 | h1⟩ := safe_lock_pass_cases w w' c id _ h
  · exact absurd h1.2.1 (by simp)
  · obtain ⟨_, _, o, ho, hs⟩ := LockManager.safe_lock_false_eq _ _ _ _ _ _ h1.1
    exact ⟨o, ho, (DependencyManager.set_thread_dependency_false_eq _ _ _ _ hs).1⟩
  · exact absurd h1.2.1 (by simp)

/-- On an acyclic dependency map, a pass of `safe_lock` on a held identity whose owner
neither is the caller nor reaches the caller ends in `wait`. -/
theorem safe_lock_pass_waits (w : World) (c o : ThreadId) (id : SmartMutexID)
    (hac : DependencyManager.Acyclic w.lock_manager.dependency_manager.dependencies)
    (ho : UMap.find? w.lock_manager.current_mutex_owner id = some o)
    (hn : ¬ (c = o ∨
      DependencyManager.Reaches w.lock_manager.dependency_manager.dependencies o c)) :
    ∃ w', safe_lock_pass w c id = some (.safe_lock_waiting, w') := by
  rcases DependencyManager.set_thread_dependency_acyclic
    w.lock_manager.dependency_manager c o hac with ⟨hp, _⟩ | ⟨_, hs⟩
  · exact absurd hp hn
  · refine ⟨⟨⟨⟨UMap.assign w.lock_manager.dependency_manager.dependencies c o⟩,
      UMap.subscript w.lock_manager.lock_manager_CVs id (),
      w.lock_manager.current_mutex_owner⟩, set_mutex w.locked id (w.mutex id),
      (c, id) :: w.waiting, w.holders, w.last_acquirer⟩, ?_⟩
    simp only [safe_lock_pass, LockManager.safe_lock, ho, hs]

end World

namespace World

/-- C5 fails on the code: a false deadlock report.  In the reachable world `stale_world`
thread 1 holds identity 20 and is suspended on identity 10, which thread 2 has just
released, and thread 2 holds nothing.  `safe_lock(20)` called by thread 2 returns false
on the edge `1 → 2` that thread 1 recorded before the release, and `SmartMutex::lock`
calls `std::terminate`; yet the actual wait-for relation extended with the edge from
thread 2 to the owner of identity 20 has no cycle through thread 2, since thread 1 waits
on an identity without owner.  In the other order of the same two steps, thread 1 wakes
up first and acquires identity 10, and the same call by thread 2 ends in the ordinary
blocking wait. -/
theorem false_deadlock_report :
    Reachable stale_world ∧
    step stale_world (.safe_lock 2 ⟨20⟩) = some (.safe_lock_returned false, stale_world) ∧
    ¬ Relation.TransGen (WaitsForExt stale_world 2 ⟨20⟩) 2 2 ∧
    (∀ c, ((⟨10⟩ : SmartMutexID), c) ∉ stale_world.holders) ∧
    (∀ id, ((id, 2) : SmartMutexID × ThreadId) ∉ stale_world.holders) ∧
    SmartMutex.lock stale_world.lock_manager 2 ⟨stale_world.mutex ⟨20⟩, ⟨20⟩⟩
      = some (.terminated, stale_world.lock_manager, ⟨true, ⟨20⟩⟩) ∧
    step stale_world (.wake 1 ⟨10⟩)
      = some (.safe_lock_returned true,
          ⟨⟨⟨[]⟩, [(⟨10⟩, ())], [(⟨10⟩, 1), (⟨20⟩, 1)]⟩, [⟨10⟩, ⟨20⟩], [],
            [(⟨10⟩, 1), (⟨20⟩, 1)], [(⟨10⟩, 1), (⟨20⟩, 1)]⟩) ∧
    step
        ⟨⟨⟨[]⟩, [(⟨10⟩, ())], [(⟨10⟩, 1), (⟨20⟩, 1)]⟩, [⟨10⟩, ⟨20⟩], [],
          [(⟨10⟩, 1), (⟨20⟩, 1)], [(⟨10⟩, 1), (⟨20⟩, 1)]⟩
        (.safe_lock 2 ⟨20⟩)
      = some (.safe_lock_waiting,
          ⟨⟨⟨[(2, 1)]⟩, [(⟨20⟩, ()), (⟨10⟩, ())], [(⟨10⟩, 1), (⟨20⟩, 1)]⟩,
            [⟨20⟩, ⟨10⟩], [(2, ⟨20⟩)], [(⟨10⟩, 1), (⟨20⟩, 1)],
            [(⟨10⟩, 1), (⟨20⟩, 1)]⟩) := by
  refine ⟨stale_world_reachable, rfl, ?_, ?_, ?_, rfl, rfl, rfl⟩
  rotate_left
  · intro c h
    simp [stale_world] at h
  · intro id h
    simp [stale_world] at h
  intro h
  obtain ⟨y, hy, hrest⟩ := Relation.TransGen.head'_iff.1 h
  have hy1 : y = 1 := by
    rcases hy with ⟨j, hj, _⟩ | ⟨_, ho⟩
    · simp [stale_world] at hj
    · simp only [stale_world, UMap.find?, if_true, Option.some.injEq] at ho
      exact ho.symm
  subst hy1
  rcases Relation.ReflTransGen.cases_head hrest with h12 | ⟨z, hz, _⟩
  · exact absurd h12 (by decide)
  · rcases hz with ⟨j, hj, ho⟩ | ⟨h12, _⟩
    · simp only [stale_world, List.mem_singleton, Prod.mk.injEq, true_and] at hj
      subst hj
      simp [stale_world, UMap.find?] at ho
    · exact absurd h12 (by decide)

/-- What the cycle check of `safe_lock` decides on, in every reachable world: a pass by
thread `c` returns false only if `c` is the recorded owner of `id` or is reached from it
along the edges recorded in the dependency map, and a pass on a held identity whose
recorded owner neither is `c` nor reaches `c` along recorded edges ends in `wait`. -/
theorem safe_lock_false_recorded_cycle (w : World) (hr : Reachable w) (c : ThreadId)
    (id : SmartMutexID) :
    (∀ a w', (a = .safe_lock c id ∨ a = .wake c id) →
      step w a = some (.safe_lock_returned false, w') →
      ∃ o, UMap.find? w.lock_manager.current_mutex_owner id = some o ∧
        (c = o ∨
          DependencyManager.Reaches w.lock_manager.dependency_manager.dependencies o c)) ∧
    (∀ a o, ((a = .safe_lock c id ∧ w.is_waiting c = false) ∨
        (a = .wake c id ∧ (c, id) ∈ w.waiting)) →
      UMap.find? w.lock_manager.current_mutex_owner id = some o →
      ¬ (c = o ∨
        DependencyManager.Reaches w.lock_manager.dependency_manager.dependencies o c) →
      ∃ w', step w a = some (.safe_lock_waiting, w')) := by
  have hac := acyclic_reachable w hr
  refine ⟨?_, ?_⟩
  · intro a w' ha hs
    rcases ha with ha | ha
    · subst ha
      simp only [step] at hs
      split_ifs at hs
      exact safe_lock_pass_false_recorded w w' c id hs
    · subst ha
      simp only [step] at hs
      split_ifs at hs
      have hrec := safe_lock_pass_false_recorded _ w' c id hs
      exact hrec
  · intro a o ha ho hn
    rcases ha with ⟨ha, hw⟩ | ⟨ha, hw⟩
    · subst ha
      obtain ⟨w', hw'⟩ := safe_lock_pass_waits w c o id hac ho hn
      exact ⟨w', by simp only [step, hw, Bool.false_eq_true, if_false, hw']⟩
    · subst ha
      have hpass := safe_lock_pass_waits
        ⟨w.lock_manager, w.locked, w.waiting.filter (fun p => decide (p.1 ≠ c)),
          w.holders, w.last_acquirer⟩ c o id hac ho hn
      obtain ⟨w', hw'⟩ := hpass
      exact ⟨w', by simp only [step, hw, if_true, hw']⟩

/-- C7 fails on the code: in the reachable world `crossed_world` thread 1, suspended on
identity 10 with the edge `1 → 2` of its earlier pass, wakes up, finds thread 3 as the new
owner, and `safe_lock` returns false; on return the dependency map still holds the edge
`1 → 2`. -/
theorem safe_lock_false_keeps_edge :
    Reachable crossed_world ∧
    crossed_world.lock_manager.safe_lock 1 ⟨10⟩ true
      = some (.returned false, crossed_world.lock_manager, true) ∧
    step crossed_world (.wake 1 ⟨10⟩)
      = some (.safe_lock_returned false,
          ⟨crossed_world.lock_manager, [⟨10⟩, ⟨20⟩], [(3, ⟨20⟩)],
            crossed_world.holders, crossed_world.last_acquirer⟩) ∧
    UMap.find? crossed_world.lock_manager.dependency_manager.dependencies 1 = some 2 :=
  ⟨crossed_world_reachable, rfl, rfl, rfl⟩

end World

namespace SmartMutex

/-- C9 fails on the code: `LockManager::try_lock` returns true on a free mutex and false
on a held one, and `SmartMutex::try_lock` hands the same value of type `void` to its
caller in both cases. -/
theorem try_lock_drops_result (lm : LockManager) (c : ThreadId) (id : SmartMutexID) :
    (lm.try_lock c id false).1 = true ∧
    (lm.try_lock c id true).1 = false ∧
    (SmartMutex.try_lock lm c ⟨false, id⟩).1 = (SmartMutex.try_lock lm c ⟨true, id⟩).1 :=
  ⟨rfl, rfl, rfl⟩

end SmartMutex

/-! ## The shape of a step -/

namespace World

theorem is_waiting_iff (w : World) (c : ThreadId) :
    w.is_waiting c = true ↔ ∃ j, (c, j) ∈ w.waiting := by
  unfold is_waiting
  rw [List.any_eq_true]
  constructor
  · rintro ⟨⟨c', j⟩, hmem, hc⟩
    simp only [decide_eq_true_eq] at hc
    subst hc
    exact ⟨j, hmem⟩
  · rintro ⟨j, hmem⟩
    exact ⟨(c, j), hmem, by simp⟩

theorem mem_entry_waiting (w : World) (a : Action) (p : ThreadId × SmartMutexID)
    (h : p ∈ w.entry_waiting a) : p ∈ w.waiting := by
  cases a <;> simp only [entry_waiting, List.mem_filter] at h
  · exact h
  · exact h.1
  · exact h
  · exact h

theorem mem_entry_waiting_of_ne (w : World) (a : Action) (p : ThreadId × SmartMutexID)
    (h : p ∈ w.waiting) (hne : p.1 ≠ a.thread) : p ∈ w.entry_waiting a := by
  cases a <;> simp only [entry_waiting, List.mem_filter]
  · exact h
  · exact ⟨h, by simpa [Action.thread] using hne⟩
  · exact h
  · exact h

/-- Every step has one of six shapes; the successor world is given in full. -/
theorem step_shape (w w' : World) (a : Action) (r : StepResult)
    (h : step w a = some (r, w')) :
    ((a = .wake a.thread a.target ∧ (a.thread, a.target) ∈ w.waiting) ∨
      (w.entry_waiting a = w.waiting ∧ w.is_waiting a.thread = false)) ∧
    ((r = .safe_lock_waiting ∧ ∃ o,
        UMap.find? w.lock_manager.current_mutex_owner a.target = some o ∧
        w' = ⟨⟨⟨UMap.assign w.lock_manager.dependency_manager.dependencies a.thread o⟩,
            UMap.subscript w.lock_manager.lock_manager_CVs a.target (),
            w.lock_manager.current_mutex_owner⟩,
          set_mutex w.locked a.target (w.mutex a.target),
          (a.thread, a.target) :: w.entry_waiting a, w.holders, w.last_acquirer⟩) ∨
      (r = .safe_lock_returned false ∧
        w' = ⟨w.lock_manager, set_mutex w.locked a.target (w.mutex a.target),
          w.entry_waiting a, w.holders, w.last_acquirer⟩) ∨
      (r = .safe_lock_returned true ∧ w.mutex a.target = false ∧
        UMap.find? w.lock_manager.current_mutex_owner a.target = none ∧
        w' = ⟨⟨⟨UMap.erase w.lock_manager.dependency_manager.dependencies a.thread⟩,
            w.lock_manager.lock_manager_CVs,
            UMap.assign w.lock_manager.current_mutex_owner a.target a.thread⟩,
          set_mutex w.locked a.target true, w.entry_waiting a,
          (a.target, a.thread) :: w.holders,
          UMap.assign w.last_acquirer a.target a.thread⟩) ∨
      (r = .try_lock_returned true ∧ w.mutex a.target = false ∧
        w.is_waiting a.thread = false ∧
        w' = ⟨⟨w.lock_manager.dependency_manager, w.lock_manager.lock_manager_CVs,
            UMap.assign w.lock_manager.current_mutex_owner a.target a.thread⟩,
          set_mutex w.locked a.target true, w.waiting,
          (a.target, a.thread) :: w.holders,
          UMap.assign w.last_acquirer a.target a.thread⟩) ∨
      (r = .try_lock_returned false ∧ w.is_waiting a.thread = false ∧
        w' = ⟨w.lock_manager, set_mutex w.locked a.target (w.mutex a.target),
          w.waiting, w.holders, w.last_acquirer⟩) ∨
      (∃ n, r = .unlock_returned n ∧ w.is_waiting a.thread = false ∧
        w' = ⟨⟨w.lock_manager.dependency_manager, w.lock_manager.lock_manager_CVs,
            UMap.erase w.lock_manager.current_mutex_owner a.target⟩,
          set_mutex w.locked a.target false, w.waiting,
          w.holders.filter (fun p => decide (p ≠ (a.target, a.thread))),
          w.last_acquirer⟩)) := by
  have pass : ∀ (w0 : World) (c : ThreadId) (id : SmartMutexID),
      safe_lock_pass w0 c id = some (r, w') →
      (r = .safe_lock_waiting ∧ ∃ o,
        UMap.find? w0.lock_manager.current_mutex_owner id = some o ∧
        w' = ⟨⟨⟨UMap.assign w0.lock_manager.dependency_manager.dependencies c o⟩,
            UMap.subscript w0.lock_manager.lock_manager_CVs id (),
            w0.lock_manager.current_mutex_owner⟩,
          set_mutex w0.locked id (w0.mutex id), (c, id) :: w0.waiting, w0.holders,
          w0.last_acquirer⟩) ∨
      (r = .safe_lock_returned false ∧
        w' = ⟨w0.lock_manager, set_mutex w0.locked id (w0.mutex id), w0.waiting,
          w0.holders, w0.last_acquirer⟩) ∨
      (r = .safe_lock_returned true ∧ w0.mutex id = false ∧
        UMap.find? w0.lock_manager.current_mutex_owner id = none ∧
        w' = ⟨⟨⟨UMap.erase w0.lock_manager.dependency_manager.dependencies c⟩,
            w0.lock_manager.lock_manager_CVs,
            UMap.assign w0.lock_manager.current_mutex_owner id c⟩,
          set_mutex w0.locked id true, w0.waiting, (id, c) :: w0.holders,
          UMap.assign w0.last_acquirer id c⟩) := by
    intro w0 c id hp
    obtain ⟨lm, mx, h1 | h1 | h1⟩ := safe_lock_pass_cases w0 w' c id r hp
    · obtain ⟨hmx, o, dm, ho, hs, hlm⟩ := LockManager.safe_lock_waiting_eq _ _ _ _ _ _ h1.1
      obtain ⟨_, _, hdm⟩ := DependencyManager.set_thread_dependency_true_eq _ _ _ _ hs
      refine Or.inl ⟨h1.2.1, o, ho, ?_⟩
      rw [h1.2.2, hlm, hdm, hmx]
    · obtain ⟨hlm, hmx, _⟩ := LockManager.safe_lock_false_eq _ _ _ _ _ _ h1.1
      refine Or.inr (Or.inl ⟨h1.2.1, ?_⟩)
      rw [h1.2.2, hlm, hmx]
    · obtain ⟨ho, hm, hmx, hlm⟩ := LockManager.safe_lock_true_eq _ _ _ _ _ _ h1.1
      refine Or.inr (Or.inr ⟨h1.2.1, hm, ho, ?_⟩)
      rw [h1.2.2, hlm, hmx]
      rfl
  cases a with
  | safe_lock c id =>
    simp only [step] at h
    split_ifs at h with hw
    refine ⟨Or.inr ⟨rfl, by simpa using hw⟩, ?_⟩
    rcases pass w c id h with h1 | h1 | h1
    · exact Or.inl h1
    · exact Or.inr (Or.inl h1)
    · exact Or.inr (Or.inr (Or.inl h1))
  | wake c id =>
    simp only [step] at h
    split_ifs at h with hw
    refine ⟨Or.inl ⟨rfl, hw⟩, ?_⟩
    rcases pass _ c id h with h1 | h1 | h1
    · exact Or.inl h1
    · exact Or.inr (Or.inl h1)
    · exact Or.inr (Or.inr (Or.inl h1))
  | try_lock c id =>
    simp only [step] at h
    split_ifs at h with hw
    have hnw : w.is_waiting c = false := by simpa using hw
    refine ⟨Or.inr ⟨rfl, hnw⟩, ?_⟩
    cases hm : w.mutex id with
    | true =>
      simp only [LockManager.try_lock, hm, if_true, Option.some.injEq, Prod.mk.injEq] at h
      refine Or.inr (Or.inr (Or.inr (Or.inr (Or.inl ⟨h.1.symm, hnw, ?_⟩))))
      rw [← h.2]
      simp only [Action.target, hm]
    | false =>
      simp only [LockManager.try_lock, hm, Bool.false_eq_true, if_false, Option.some.injEq,
        Prod.mk.injEq] at h
      refine Or.inr (Or.inr (Or.inr (Or.inl ⟨h.1.symm, hm, hnw, ?_⟩)))
      rw [← h.2]
      rfl
  | unlock c id =>
    simp only [step] at h
    split_ifs at h with hw hlast
    have hnw : w.is_waiting c = false := by simpa using hw
    refine ⟨Or.inr ⟨rfl, hnw⟩, ?_⟩
    simp only [LockManager.unlock, Option.some.injEq, Prod.mk.injEq] at h
    refine Or.inr (Or.inr (Or.inr (Or.inr (Or.inr ⟨_, h.1.symm, hnw, ?_⟩))))
    rw [← h.2]
    rfl

end World

/-! ## The owner map and the underlying mutexes -/

namespace World

theorem owner_locked_same (owner : List (SmartMutexID × ThreadId))
    (locked : List SmartMutexID)
    (H : ∀ j, UMap.find? owner j = none ↔ j ∉ locked) (id : SmartMutexID) :
    ∀ j, UMap.find? owner j = none ↔ j ∉ set_mutex locked id (decide (id ∈ locked)) := by
  intro j
  rw [H j, mem_set_mutex]
  by_cases hj : j = id
  · subst hj
    simp
  · simp [hj]

theorem owner_locked_assign (owner : List (SmartMutexID × ThreadId))
    (locked : List SmartMutexID)
    (H : ∀ j, UMap.find? owner j = none ↔ j ∉ locked) (id : SmartMutexID) (c : ThreadId) :
    ∀ j, UMap.find? (UMap.assign owner id c) j = none ↔ j ∉ set_mutex locked id true := by
  intro j
  rw [mem_set_mutex]
  by_cases hj : j = id
  · subst hj
    simp [UMap.find?_assign_self]
  · rw [UMap.find?_assign_ne owner c hj, H j]
    simp [hj]

theorem owner_locked_erase (owner : List (SmartMutexID × ThreadId))
    (locked : List SmartMutexID)
    (H : ∀ j, UMap.find? owner j = none ↔ j ∉ locked) (id : SmartMutexID) :
    ∀ j, UMap.find? (UMap.erase owner id) j = none ↔ j ∉ set_mutex locked id false := by
  intro j
  rw [mem_set_mutex]
  by_cases hj : j = id
  · subst hj
    simp [UMap.find?_erase_self]
  · rw [UMap.find?_erase_ne owner hj, H j]
    simp [hj]

theorem ownerInv_step (w w' : World) (a : Action) (r : StepResult) (hinv : OwnerInv w)
    (h : step w a = some (r, w')) : OwnerInv w' := by
  obtain ⟨_, hs⟩ := step_shape w w' a r h
  rcases hs with ⟨_, o, _, hw⟩ | ⟨_, hw⟩ | ⟨_, _, _, hw⟩ | ⟨_, _, _, hw⟩ | ⟨_, _, hw⟩ |
    ⟨n, _, _, hw⟩
  · subst hw
    exact owner_locked_same _ _ hinv a.target
  · subst hw
    exact owner_locked_same _ _ hinv a.target
  · subst hw
    exact owner_locked_assign _ _ hinv a.target a.thread
  · subst hw
    exact owner_locked_assign _ _ hinv a.target a.thread
  · subst hw
    exact owner_locked_same _ _ hinv a.target
  · subst hw
    exact owner_locked_erase _ _ hinv a.target

theorem ownerInv_reachable (w : World) (hr : Reachable w) : OwnerInv w := by
  induction hr with
  | init => intro id; simp [empty, LockManager.empty, UMap.find?]
  | next _ hs ih => exact ownerInv_step _ _ _ _ ih hs

/-- C18: in every world reachable from the empty one by steps of `safe_lock`, `try_lock`
and `unlock` (`unlock` of `id` only by the thread that last acquired it, no destruction),
the owner map has an entry for `id` if and only if the underlying mutex of `id` is
locked; consequently no pass of `safe_lock` ends suspended in the underlying `lock()`,
and `LockManager::try_lock` returns true exactly when no owner is recorded for `id`. -/
theorem owner_iff_locked (w : World) (hr : Reachable w) :
    (∀ id, (∃ c, UMap.find? w.lock_manager.current_mutex_owner id = some c) ↔
      w.mutex id = true) ∧
    (∀ c id lm mx, w.lock_manager.safe_lock c id (w.mutex id) ≠ some (.blocked, lm, mx)) ∧
    (∀ c id, (w.lock_manager.try_lock c id (w.mutex id)).1 = true ↔
      UMap.find? w.lock_manager.current_mutex_owner id = none) := by
  have hinv := ownerInv_reachable w hr
  have hmx : ∀ id, w.mutex id = true ↔ id ∈ w.locked := by
    intro id
    simp [mutex]
  refine ⟨?_, ?_, ?_⟩
  · intro id
    rw [hmx id]
    have := hinv id
    constructor
    · rintro ⟨c, hc⟩
      by_contra hn
      rw [this.2 hn] at hc
      exact absurd hc (by simp)
    · intro hl
      cases ho : UMap.find? w.lock_manager.current_mutex_owner id with
      | none => exact absurd hl (this.1 ho)
      | some c => exact ⟨c, rfl⟩
  · intro c id lm mx hb
    unfold LockManager.safe_lock at hb
    cases ho : UMap.find? w.lock_manager.current_mutex_owner id with
    | some o =>
      rw [ho] at hb
      simp only at hb
      cases hs : w.lock_manager.dependency_manager.set_thread_dependency c o with
      | none => rw [hs] at hb; simp at hb
      | some p =>
        obtain ⟨b, dm⟩ := p
        rw [hs] at hb
        cases b <;> simp at hb
    | none =>
      have hfree : w.mutex id = false := by
        have := (hinv id).1 ho
        simpa [mutex] using this
      rw [ho, hfree] at hb
      simp at hb
  · intro c id
    have := hinv id
    cases hm : w.mutex id with
    | true =>
      have hl : id ∈ w.locked := (hmx id).1 hm
      simp only [LockManager.try_lock, if_true, Bool.false_eq_true, false_iff]
      intro ho
      exact this.1 ho hl
    | false =>
      have hl : id ∉ w.locked := fun hl => by
        have := (hmx id).2 hl
        rw [hm] at this
        exact absurd this (by simp)
      simp only [LockManager.try_lock, Bool.false_eq_true, if_false, true_iff]
      exact this.2 hl

/-- C18 at `stale_world`: identity 20 is owned and locked, identity 10 is neither. -/
theorem owner_iff_locked_witness :
    Reachable stale_world ∧
    (∀ id, (∃ c, UMap.find? stale_world.lock_manager.current_mutex_owner id = some c) ↔
      stale_world.mutex id = true) ∧
    (∀ c id lm mx,
      stale_world.lock_manager.safe_lock c id (stale_world.mutex id)
        ≠ some (.blocked, lm, mx)) ∧
    (∀ c id, (stale_world.lock_manager.try_lock c id (stale_world.mutex id)).1 = true ↔
      UMap.find? stale_world.lock_manager.current_mutex_owner id = none) :=
  ⟨stale_world_reachable, owner_iff_locked stale_world stale_world_reachable⟩

end World

/-! ## Construction and destruction of a `SmartMutex` -/

namespace UMap

theorem mem_erase {κ ν : Type} [DecidableEq κ] (m : List (κ × ν)) (k : κ) (p : κ × ν) :
    p ∈ erase m k ↔ p ∈ m ∧ p.1 ≠ k := by
  simp [erase, List.mem_filter]

theorem erase_erase {κ ν : Type} [DecidableEq κ] (m : List (κ × ν)) (k : κ) :
    erase (erase m k) k = erase m k :=
  erase_of_find?_none _ _ (find?_erase_self m k)

theorem erase_assign {κ ν : Type} [DecidableEq κ] (m : List (κ × ν)) (k : κ) (v : ν) :
    erase (assign m k v) k = erase m k := by
  unfold assign
  rw [erase_cons_eq, erase_erase]

theorem erase_subscript {κ ν : Type} [DecidableEq κ] (m : List (κ × ν)) (k : κ) (v : ν) :
    erase (subscript m k v) k = erase m k := by
  unfold subscript
  split_ifs
  · rfl
  · rw [erase_cons_eq]

/-- Erasing a key that a filter rejects does not change the filtered map. -/
theorem filter_erase {κ ν : Type} [DecidableEq κ] (m : List (κ × ν)) (k : κ) (q : κ → Bool)
    (hk : q k = false) :
    (erase m k).filter (fun p => q p.1) = m.filter (fun p => q p.1) := by
  induction m with
  | nil => rfl
  | cons p rest ih =>
    obtain ⟨k', v⟩ := p
    by_cases h : k' = k
    · subst h
      rw [erase_cons_eq, ih]
      simp [List.filter_cons, hk]
    · rw [erase_cons_ne rest v h]
      simp only [List.filter_cons, ih]

theorem filter_assign {κ ν : Type} [DecidableEq κ] (m : List (κ × ν)) (k : κ) (v : ν)
    (q : κ → Bool) (hk : q k = false) :
    (assign m k v).filter (fun p => q p.1) = m.filter (fun p => q p.1) := by
  unfold assign
  rw [List.filter_cons]
  simp only [hk, Bool.false_eq_true, if_false]
  exact filter_erase m k q hk

end UMap

namespace World

theorem facade_step_eq (w w' : World) (a : Action) (r : StepResult)
    (h : facade_step w a = some (r, w')) :
    step w a = some (r, w') ∧ r ≠ .safe_lock_returned false := by
  unfold facade_step at h
  cases hs : step w a with
  | none => rw [hs] at h; simp at h
  | some p =>
    obtain ⟨r0, w0⟩ := p
    rw [hs] at h
    cases r0 with
    | safe_lock_returned b =>
      cases b with
      | false => simp at h
      | true =>
        simp only [Option.some.injEq, Prod.mk.injEq] at h
        exact ⟨by rw [← h.1, ← h.2], by rw [← h.1]; simp⟩
    | safe_lock_waiting =>
      simp only [Option.some.injEq, Prod.mk.injEq] at h
      exact ⟨by rw [← h.1, ← h.2], by rw [← h.1]; simp⟩
    | try_lock_returned b =>
      simp only [Option.some.injEq, Prod.mk.injEq] at h
      exact ⟨by rw [← h.1, ← h.2], by rw [← h.1]; simp⟩
    | unlock_returned n =>
      simp only [Option.some.injEq, Prod.mk.injEq] at h
      exact ⟨by rw [← h.1, ← h.2], by rw [← h.1]; simp⟩

theorem running_reachable (w : World) (h : Running w) : Reachable w := by
  induction h with
  | init => exact Reachable.init
  | next _ hs ih => exact Reachable.next ih (facade_step_eq _ _ _ _ hs).1

theorem running_facade_run (tr : List Action) :
    ∀ (w w' : World), Running w → facade_run w tr = some w' → Running w' := by
  induction tr with
  | nil =>
    intro w w' hr h
    simp only [facade_run, Option.some.injEq] at h
    exact h ▸ hr
  | cons a rest ih =>
    intro w w' hr h
    simp only [facade_run] at h
    cases hs : facade_step w a with
    | none => rw [hs] at h; simp at h
    | some p =>
      obtain ⟨r, w1⟩ := p
      rw [hs] at h
      exact ih w1 w' (Running.next hr hs) h

theorem run_on_facade_run (id : SmartMutexID) (tr : List Action) :
    ∀ (w w' : World), run_on id w tr = some w' → facade_run w tr = some w' := by
  induction tr with
  | nil => intro w w' h; exact h
  | cons a rest ih =>
    intro w w' h
    simp only [run_on] at h
    split_ifs at h with ha
    simp only [facade_run]
    cases hs : facade_step w a with
    | none => rw [hs] at h; simp at h
    | some p =>
      obtain ⟨r, w1⟩ := p
      rw [hs] at h
      exact ih w1 w' h

/-- A thread suspended before the step, other than the one that takes it, is suspended
after the entry of the step. -/
theorem is_waiting_entry (w : World) (a : Action) (c : ThreadId)
    (hc : w.is_waiting c = true) (hne : c ≠ a.thread) :
    ∃ j, (c, j) ∈ w.entry_waiting a := by
  obtain ⟨j, hj⟩ := (is_waiting_iff w c).1 hc
  exact ⟨j, mem_entry_waiting_of_ne w a (c, j) hj hne⟩

theorem edgesWait_step (w w' : World) (a : Action) (r : StepResult) (hinv : EdgesWait w)
    (h : facade_step w a = some (r, w')) : EdgesWait w' := by
  obtain ⟨hs, hr⟩ := facade_step_eq w w' a r h
  obtain ⟨_, hsh⟩ := step_shape w w' a r hs
  rcases hsh with ⟨_, o, _, hw⟩ | ⟨hf, _⟩ | ⟨_, _, _, hw⟩ | ⟨_, _, _, hw⟩ | ⟨_, _, hw⟩ |
    ⟨n, _, _, hw⟩
  · subst hw
    intro p hp
    rw [is_waiting_iff]
    simp only [UMap.assign, List.mem_cons] at hp
    rcases hp with hp | hp
    · subst hp
      exact ⟨a.target, List.mem_cons_self _ _⟩
    · obtain ⟨hp1, hp2⟩ := (UMap.mem_erase _ _ _).1 hp
      obtain ⟨j, hj⟩ := is_waiting_entry w a p.1 (hinv p hp1) hp2
      exact ⟨j, List.mem_cons_of_mem _ hj⟩
  · exact absurd hf hr
  · subst hw
    intro p hp
    rw [is_waiting_iff]
    obtain ⟨hp1, hp2⟩ := (UMap.mem_erase _ _ _).1 hp
    exact is_waiting_entry w a p.1 (hinv p hp1) hp2
  · subst hw
    exact hinv
  · subst hw
    exact hinv
  · subst hw
    exact hinv

theorem edgesWait_running (w : World) (h : Running w) : EdgesWait w := by
  induction h with
  | init => intro p hp; simp [empty, LockManager.empty] at hp
  | next _ hs ih => exact edgesWait_step _ _ _ _ ih hs

theorem frame_init (w0 : World) (id : SmartMutexID) (hfresh : Fresh w0 id)
    (hedges : EdgesWait w0) : Frame w0 id w0 := by
  obtain ⟨ho, hcv, _, hw⟩ := hfresh
  refine ⟨UMap.erase_of_find?_none _ _ ho, UMap.erase_of_find?_none _ _ hcv, ?_, ?_,
    fun _ h => h, ?_⟩
  · rw [List.filter_eq_self]
    intro p hp
    exact hedges p hp
  · intro p hp
    exact Or.inl (hedges p hp)
  · intro c hc
    exact absurd hc (hw c)

end World

namespace World

theorem frame_step (w0 w w' : World) (a : Action) (r : StepResult)
    (hF : Frame w0 a.target w) (h : facade_step w a = some (r, w')) :
    Frame w0 a.target w' := by
  obtain ⟨hs, hr⟩ := facade_step_eq w w' a r h
  obtain ⟨hpre, hsh⟩ := step_shape w w' a r hs
  have hq : w0.is_waiting a.thread = false := by
    rcases hpre with ⟨_, hmem⟩ | ⟨_, hnw⟩
    · exact hF.other _ hmem
    · cases hq0 : w0.is_waiting a.thread with
      | false => rfl
      | true =>
        have := hF.still _ hq0
        rw [hnw] at this
        exact absurd this (by simp)
  have hstill : ∀ c0, w0.is_waiting c0 = true → ∃ j, (c0, j) ∈ w.entry_waiting a := by
    intro c0 hc0
    have hne : c0 ≠ a.thread := by
      intro e
      rw [e, hq] at hc0
      exact absurd hc0 (by simp)
    exact is_waiting_entry w a c0 (hF.still c0 hc0) hne
  have hother : ∀ c, (c, a.target) ∈ w.entry_waiting a → w0.is_waiting c = false :=
    fun c hc => hF.other c (mem_entry_waiting _ _ _ hc)
  have hedges : ∀ p ∈ w.lock_manager.dependency_manager.dependencies, p.1 ≠ a.thread →
      w0.is_waiting p.1 = true ∨ (p.1, a.target) ∈ w.entry_waiting a := by
    intro p hp hne
    rcases hF.edges p hp with h1 | h1
    · exact Or.inl h1
    · exact Or.inr (mem_entry_waiting_of_ne w a _ h1 hne)
  rcases hsh with ⟨_, o, _, hw⟩ | ⟨hf, _⟩ | ⟨_, _, _, hw⟩ | ⟨_, _, _, hw⟩ | ⟨_, _, hw⟩ |
    ⟨n, _, _, hw⟩
  · subst hw
    refine ⟨hF.owner, ?_, ?_, ?_, ?_, ?_⟩
    · show UMap.erase (UMap.subscript w.lock_manager.lock_manager_CVs a.target ()) a.target
        = _
      rw [UMap.erase_subscript]
      exact hF.cvs
    · exact (UMap.filter_assign _ _ _ w0.is_waiting hq).trans hF.deps
    · intro p hp
      simp only [UMap.assign, List.mem_cons] at hp
      rcases hp with hp | hp
      · subst hp
        exact Or.inr (List.mem_cons_self _ _)
      · obtain ⟨hp1, hp2⟩ := (UMap.mem_erase _ _ _).1 hp
        rcases hedges p hp1 hp2 with h1 | h1
        · exact Or.inl h1
        · exact Or.inr (List.mem_cons_of_mem _ h1)
    · intro c0 hc0
      obtain ⟨j, hj⟩ := hstill c0 hc0
      exact (is_waiting_iff _ _).2 ⟨j, List.mem_cons_of_mem _ hj⟩
    · intro c hc
      simp only [List.mem_cons, Prod.mk.injEq] at hc
      rcases hc with hc | hc
      · rw [hc.1]
        exact hq
      · exact hother c hc
  · exact absurd hf hr
  · subst hw
    refine ⟨?_, hF.cvs, ?_, ?_, ?_, ?_⟩
    · show UMap.erase (UMap.assign w.lock_manager.current_mutex_owner a.target a.thread)
        a.target = _
      rw [UMap.erase_assign]
      exact hF.owner
    · exact (UMap.filter_erase _ _ w0.is_waiting hq).trans hF.deps
    · intro p hp
      obtain ⟨hp1, hp2⟩ := (UMap.mem_erase _ _ _).1 hp
      exact hedges p hp1 hp2
    · intro c0 hc0
      exact (is_waiting_iff _ _).2 (hstill c0 hc0)
    · exact hother
  · subst hw
    refine ⟨?_, hF.cvs, hF.deps, hF.edges, hF.still, hF.other⟩
    show UMap.erase (UMap.assign w.lock_manager.current_mutex_owner a.target a.thread)
      a.target = _
    rw [UMap.erase_assign]
    exact hF.owner
  · subst hw
    exact ⟨hF.owner, hF.cvs, hF.deps, hF.edges, hF.still, hF.other⟩
  · subst hw
    refine ⟨?_, hF.cvs, hF.deps, hF.edges, hF.still, hF.other⟩
    show UMap.erase (UMap.erase w.lock_manager.current_mutex_owner a.target) a.target = _
    rw [UMap.erase_erase]
    exact hF.owner

theorem frame_run_on (w0 : World) (id : SmartMutexID) (tr : List Action) :
    ∀ (w w' : World), Frame w0 id w → run_on id w tr = some w' → Frame w0 id w' := by
  induction tr with
  | nil =>
    intro w w' hF h
    simp only [run_on, Option.some.injEq] at h
    exact h ▸ hF
  | cons a rest ih =>
    intro w w' hF h
    simp only [run_on] at h
    split_ifs at h with ha
    cases hs : facade_step w a with
    | none => rw [hs] at h; simp at h
    | some p =>
      obtain ⟨r, w1⟩ := p
      rw [hs] at h
      subst ha
      exact ih w1 w' (frame_step w0 w w1 a r hF hs) h

/-- A run of calls on `id` alone that ends with nobody waiting on `id` and with `id`
unlocked leaves, once the wait channel of `id` is erased, the coordinator it started
from. -/
theorem destroy_after_run_on (w0 w1 : World) (id : SmartMutexID) (tr : List Action)
    (hrun : Running w0) (hfresh : Fresh w0 id) (htr : run_on id w0 tr = some w1)
    (hnowait : ∀ c, (c, id) ∉ w1.waiting) (hfree : w1.mutex id = false) :
    w1.lock_manager.at_smart_mutex_destruction id = w0.lock_manager := by
  have hF := frame_run_on w0 id tr w0 w1 (frame_init w0 id hfresh (edgesWait_running w0 hrun))
    htr
  have hrun1 : Running w1 :=
    running_facade_run tr w0 w1 hrun (run_on_facade_run id tr w0 w1 htr)
  have hown : UMap.find? w1.lock_manager.current_mutex_owner id = none :=
    (ownerInv_reachable w1 (running_reachable w1 hrun1) id).2 (by simpa [mutex] using hfree)
  have h1 : w1.lock_manager.current_mutex_owner = w0.lock_manager.current_mutex_owner := by
    rw [← hF.owner, UMap.erase_of_find?_none _ _ hown]
  have h2 : w1.lock_manager.dependency_manager.dependencies
      = w0.lock_manager.dependency_manager.dependencies := by
    rw [← hF.deps]
    symm
    rw [List.filter_eq_self]
    intro p hp
    rcases hF.edges p hp with h | h
    · exact h
    · exact absurd h (hnowait _)
  have h3 : w1.lock_manager.dependency_manager = w0.lock_manager.dependency_manager := by
    cases hd1 : w1.lock_manager.dependency_manager
    cases hd0 : w0.lock_manager.dependency_manager
    rw [hd1, hd0] at h2
    simp only at h2
    rw [h2]
  unfold LockManager.at_smart_mutex_destruction
  rw [hF.cvs, h1, h3]

end World

namespace World

theorem stale_world_running : Running stale_world :=
  running_facade_run
    [.safe_lock 1 ⟨20⟩, .safe_lock 2 ⟨10⟩, .safe_lock 1 ⟨10⟩, .unlock 2 ⟨10⟩]
    empty stale_world Running.init rfl

/-- C11 as stated fails: from the empty coordinator, `try_lock` by thread 1 on a new
`SmartMutex` with identity 10 succeeds; no thread is blocked on it; after the destructor
the owner map still has its entry for identity 10, one entry more than before the
construction. -/
theorem destruction_of_held_leaks :
    Running empty ∧ Fresh empty ⟨10⟩ ∧
    run_on ⟨10⟩ empty [.try_lock 1 ⟨10⟩] = some held_world ∧
    (∀ c, (c, (⟨10⟩ : SmartMutexID)) ∉ held_world.waiting) ∧
    (SmartMutex.destroy held_world.lock_manager
      ⟨held_world.mutex ⟨10⟩, ⟨10⟩⟩).bookkeeping = (1, 0, 0) ∧
    empty.lock_manager.bookkeeping = (0, 0, 0) := by
  refine ⟨Running.init, ⟨rfl, rfl, ?_, ?_⟩, rfl, ?_, rfl, rfl⟩
  · simp [empty]
  · intro c h
    simp [empty] at h
  · intro c h
    simp [held_world] at h

/-- C11, amended: for a `SmartMutex` whose identity is unused when it is constructed in a
running process, and every sequence of `lock`, `try_lock` and `unlock` calls made on it,
if at its destruction no thread is blocked on it and it is not held (its underlying mutex
is unlocked), then after the destructor has run the owner map, the dependency map and
the wait-channel map are what they were before the construction, and so are their
numbers of entries. -/
theorem destruction_restores_bookkeeping (w0 w1 : World) (id : SmartMutexID)
    (tr : List Action) (hrun : Running w0) (hfresh : Fresh w0 id)
    (htr : run_on id w0 tr = some w1) (hnowait : ∀ c, (c, id) ∉ w1.waiting)
    (hfree : w1.mutex id = false) :
    SmartMutex.destroy w1.lock_manager ⟨w1.mutex id, id⟩ = w0.lock_manager ∧
    (SmartMutex.destroy w1.lock_manager ⟨w1.mutex id, id⟩).bookkeeping
      = w0.lock_manager.bookkeeping := by
  have h := destroy_after_run_on w0 w1 id tr hrun hfresh htr hnowait hfree
  unfold SmartMutex.destroy
  exact ⟨h, by rw [h]⟩

/-- C11, amended, at `stale_world` and a new identity 30: thread 2 locks it, thread 3
waits for it, thread 2 unlocks, thread 3 wakes and locks, thread 3 unlocks; the
destructor then leaves the coordinator of `stale_world`. -/
theorem destruction_restores_bookkeeping_witness :
    Running stale_world ∧ Fresh stale_world ⟨30⟩ ∧
    run_on ⟨30⟩ stale_world
        [.safe_lock 2 ⟨30⟩, .safe_lock 3 ⟨30⟩, .unlock 2 ⟨30⟩, .wake 3 ⟨30⟩, .unlock 3 ⟨30⟩]
      = some ⟨⟨⟨[(1, 2)]⟩, [(⟨30⟩, ()), (⟨10⟩, ())], [(⟨20⟩, 1)]⟩, [⟨20⟩], [(1, ⟨10⟩)],
          [(⟨20⟩, 1)], [(⟨30⟩, 3), (⟨10⟩, 2), (⟨20⟩, 1)]⟩ ∧
    SmartMutex.destroy ⟨⟨[(1, 2)]⟩, [(⟨30⟩, ()), (⟨10⟩, ())], [(⟨20⟩, 1)]⟩ ⟨false, ⟨30⟩⟩
      = stale_world.lock_manager ∧
    (SmartMutex.destroy ⟨⟨[(1, 2)]⟩, [(⟨30⟩, ()), (⟨10⟩, ())], [(⟨20⟩, 1)]⟩
        ⟨false, ⟨30⟩⟩).bookkeeping
      = stale_world.lock_manager.bookkeeping :=
  have hfresh : Fresh stale_world ⟨30⟩ :=
    ⟨rfl, rfl, by decide, fun c h => by simp [stale_world] at h⟩
  ⟨stale_world_running, hfresh, rfl,
    destruction_restores_bookkeeping stale_world
      ⟨⟨⟨[(1, 2)]⟩, [(⟨30⟩, ()), (⟨10⟩, ())], [(⟨20⟩, 1)]⟩, [⟨20⟩], [(1, ⟨10⟩)],
        [(⟨20⟩, 1)], [(⟨30⟩, 3), (⟨10⟩, 2), (⟨20⟩, 1)]⟩
      ⟨30⟩
      [.safe_lock 2 ⟨30⟩, .safe_lock 3 ⟨30⟩, .unlock 2 ⟨30⟩, .wake 3 ⟨30⟩, .unlock 3 ⟨30⟩]
      stale_world_running hfresh rfl (fun c h => by simp at h) rfl⟩

end World

/-! ## The uncontended round trip -/

namespace LockManager

theorem lock_unlock_restores (lm : LockManager) (c : ThreadId) (id : SmartMutexID)
    (hown : UMap.find? lm.current_mutex_owner id = none)
    (hdep : UMap.find? lm.dependency_manager.dependencies c = none) :
    lm.safe_lock c id false
      = some (.returned true,
          ⟨lm.dependency_manager, lm.lock_manager_CVs,
            UMap.assign lm.current_mutex_owner id c⟩, true) ∧
    (unlock ⟨lm.dependency_manager, lm.lock_manager_CVs,
        UMap.assign lm.current_mutex_owner id c⟩ id true).2 = (lm, false) := by
  have hclear : lm.dependency_manager.clear_thread_dependency c = lm.dependency_manager := by
    unfold DependencyManager.clear_thread_dependency
    rw [UMap.erase_of_find?_none _ _ hdep]
  constructor
  · unfold safe_lock
    rw [hown]
    simp [hclear]
  · unfold unlock
    simp only [Prod.mk.injEq, and_true]
    rw [UMap.erase_assign, UMap.erase_of_find?_none _ _ hown]

theorem lock_unlock_eq (lm : LockManager) (c : ThreadId) (id : SmartMutexID)
    (hown : UMap.find? lm.current_mutex_owner id = none)
    (hdep : UMap.find? lm.dependency_manager.dependencies c = none) :
    lm.lock_unlock c id false = some (lm, false) := by
  obtain ⟨h1, h2⟩ := lock_unlock_restores lm c id hown hdep
  unfold lock_unlock
  rw [h1]
  simp only
  rw [h2]

/-- C12: in a coordinator where `id` has no owner and the calling thread has no
dependency edge, `safe_lock(id, m)` on the unlocked mutex `m` returns true on its first
pass, the following `unlock(id, m)` restores the owner map, the dependency map, the
wait-channel map and the mutex exactly, and the pair repeated `n` times succeeds every
time and ends in the same state, for every `n`. -/
theorem lock_unlock_round_trip (lm : LockManager) (c : ThreadId) (id : SmartMutexID)
    (hown : UMap.find? lm.current_mutex_owner id = none)
    (hdep : UMap.find? lm.dependency_manager.dependencies c = none) :
    (∃ lm1, lm.safe_lock c id false = some (.returned true, lm1, true) ∧
      (lm1.unlock id true).2 = (lm, false)) ∧
    ∀ n, lock_unlock_repeat c id n lm false = some (lm, false) := by
  refine ⟨⟨_, lock_unlock_restores lm c id hown hdep⟩, ?_⟩
  intro n
  induction n with
  | zero => rfl
  | succ n ih =>
    simp only [lock_unlock_repeat, lock_unlock_eq lm c id hown hdep]
    exact ih

/-- C12 at a coordinator with other entries in all three maps, with the 10000 rounds of
`StressLockTest`. -/
theorem lock_unlock_round_trip_witness :
    (∃ lm1, (LockManager.mk ⟨[(4, 5)]⟩ [(⟨7⟩, ())] [(⟨9⟩, 4)]).safe_lock 1 ⟨7⟩ false
        = some (.returned true, lm1, true) ∧
      (lm1.unlock ⟨7⟩ true).2 = (LockManager.mk ⟨[(4, 5)]⟩ [(⟨7⟩, ())] [(⟨9⟩, 4)], false)) ∧
    lock_unlock_repeat 1 ⟨7⟩ 10000 (LockManager.mk ⟨[(4, 5)]⟩ [(⟨7⟩, ())] [(⟨9⟩, 4)]) false
      = some (LockManager.mk ⟨[(4, 5)]⟩ [(⟨7⟩, ())] [(⟨9⟩, 4)], false) :=
  ⟨(lock_unlock_round_trip (LockManager.mk ⟨[(4, 5)]⟩ [(⟨7⟩, ())] [(⟨9⟩, 4)]) 1 ⟨7⟩
      rfl rfl).1,
    (lock_unlock_round_trip (LockManager.mk ⟨[(4, 5)]⟩ [(⟨7⟩, ())] [(⟨9⟩, 4)]) 1 ⟨7⟩
      rfl rfl).2 10000⟩

end LockManager

/-! ## Identities -/

namespace Heap

theorem construct_id_injective (id_offset a b : Nat)
    (h : (SmartMutex.construct a id_offset).id = (SmartMutex.construct b id_offset).id) :
    a = b := by
  simp only [SmartMutex.construct, SmartMutexID.construct, SmartMutexID.mk.injEq] at h
  omega

theorem step_live_nodup (id_offset : Nat) (h h' : Heap) (e : LifeEvent)
    (hnd : h.live.Nodup) (hs : step id_offset h e = some h') : h'.live.Nodup := by
  cases e with
  | construct this =>
    simp only [step] at hs
    split_ifs at hs with hmem
    simp only [Option.some.injEq] at hs
    rw [← hs]
    exact List.nodup_cons.2 ⟨hmem, hnd⟩
  | destroy this =>
    simp only [step] at hs
    split_ifs at hs with hmem
    simp only [Option.some.injEq] at hs
    rw [← hs]
    exact hnd.filter _

theorem run_live_nodup (id_offset : Nat) (events : List LifeEvent) :
    ∀ (h h' : Heap), h.live.Nodup → run id_offset h events = some h' → h'.live.Nodup := by
  induction events with
  | nil =>
    intro h h' hnd hr
    simp only [run, Option.some.injEq] at hr
    exact hr ▸ hnd
  | cons e rest ih =>
    intro h h' hnd hr
    simp only [run] at hr
    cases hs : step id_offset h e with
    | none => rw [hs] at hr; simp at hr
    | some h1 =>
      rw [hs] at hr
      exact ih h1 h' (step_live_nodup id_offset h h1 e hnd hs) hr

/-- C13 as stated fails: a `SmartMutex` is constructed at address 4096 and destroyed, and
a second one is constructed at the same address; both receive the identity 4136, so the
identities issued during the run are not pairwise different. -/
theorem identity_reused_at_same_address :
    run 40 ⟨[], []⟩ [.construct 4096, .destroy 4096, .construct 4096]
      = some ⟨[4096], [⟨4136⟩, ⟨4136⟩]⟩ ∧
    ¬ ([⟨4136⟩, ⟨4136⟩] : List SmartMutexID).Nodup := by
  refine ⟨rfl, by decide⟩

/-- C13, amended: the identity of a `SmartMutex` is taken from the memory address of its
member `id`, not from a counter; objects at different addresses receive different
identities, and in every run of constructions and destructions the `SmartMutex` objects
that are alive at the same time have pairwise different identities. -/
theorem live_identities_distinct (id_offset : Nat) (events : List LifeEvent) (h : Heap)
    (hr : run id_offset ⟨[], []⟩ events = some h) :
    (live_ids id_offset h).Nodup ∧
    (∀ this, (SmartMutex.construct this id_offset).id = ⟨this + id_offset⟩) ∧
    ∀ a b, (SmartMutex.construct a id_offset).id = (SmartMutex.construct b id_offset).id →
      a = b := by
  refine ⟨?_, fun _ => rfl, construct_id_injective id_offset⟩
  have hnd := run_live_nodup id_offset events ⟨[], []⟩ h List.nodup_nil hr
  unfold live_ids
  exact hnd.map (fun a b hab => construct_id_injective id_offset a b hab)

/-- C13, amended, at a run that constructs at 4096 and 8192, destroys the first and
constructs again at 4096. -/
theorem live_identities_distinct_witness :
    run 40 ⟨[], []⟩ [.construct 4096, .construct 8192, .destroy 4096, .construct 4096]
      = some ⟨[4096, 8192], [⟨4136⟩, ⟨8232⟩, ⟨4136⟩]⟩ ∧
    (live_ids 40 ⟨[4096, 8192], [⟨4136⟩, ⟨8232⟩, ⟨4136⟩]⟩).Nodup ∧
    (∀ this, (SmartMutex.construct this 40).id = ⟨this + 40⟩) ∧
    ∀ a b, (SmartMutex.construct a 40).id = (SmartMutex.construct b 40).id → a = b :=
  ⟨rfl, live_identities_distinct 40
    [.construct 4096, .construct 8192, .destroy 4096, .construct 4096]
    ⟨[4096, 8192], [⟨4136⟩, ⟨8232⟩, ⟨4136⟩]⟩ rfl⟩

end Heap

/-! ## Acyclicity, iteration count and state effect of `set_thread_dependency` -/

namespace DependencyManager

/-- A path to `c` survives the assignment `dependencies[c] = t`, unless it starts at
`c`. -/
theorem reaches_into_assign (d : List (ThreadId × ThreadId)) (c t : ThreadId) {x : ThreadId}
    (h : Reaches d x c) : x = c ∨ Reaches (UMap.assign d c t) x c := by
  generalize hz : c = z at h
  induction h with
  | @edge x y he =>
    subst hz
    by_cases hx : x = c
    · exact Or.inl hx
    · exact Or.inr (Reaches.edge (by rw [UMap.find?_assign_ne d t hx]; exact he))
  | @step x y z he _ ih =>
    subst hz
    by_cases hx : x = c
    · exact Or.inl hx
    · have he' : UMap.find? (UMap.assign d c t) x = some y := by
        rw [UMap.find?_assign_ne d t hx]; exact he
      rcases ih rfl with hy | hy
      · exact Or.inr (Reaches.edge (hy ▸ he'))
      · exact Or.inr (Reaches.step he' hy)

/-- The edge that `set_thread_dependency` refuses would close a cycle. -/
theorem cyclic_assign (d : List (ThreadId × ThreadId)) (c t : ThreadId)
    (h : c = t ∨ Reaches d t c) : ¬ Acyclic (UMap.assign d c t) := by
  intro hac
  have hedge : UMap.find? (UMap.assign d c t) c = some t := UMap.find?_assign_self d c t
  rcases h with h | h
  · subst h
    exact hac c (Reaches.edge hedge)
  · rcases reaches_into_assign d c t h with h1 | h1
    · subst h1
      exact hac t (Reaches.edge hedge)
    · exact hac c (Reaches.step hedge h1)

theorem acyclic_set_thread_dependency (dm dm' : DependencyManager) (c t : ThreadId)
    (b : Bool) (hac : Acyclic dm.dependencies)
    (h : set_thread_dependency dm c t = some (b, dm')) : Acyclic dm'.dependencies := by
  cases b with
  | true =>
    obtain ⟨hct, hnr, hdm⟩ := set_thread_dependency_true_eq dm dm' c t h
    rw [hdm]
    exact acyclic_assign hac c t hct hnr
  | false =>
    obtain ⟨_, hdm⟩ := set_thread_dependency_false_eq dm dm' c t h
    rw [hdm]
    exact hac

theorem acyclic_fromEmpty (dm : DependencyManager) (h : FromEmpty dm) :
    Acyclic dm.dependencies := by
  induction h with
  | empty => exact acyclic_nil
  | set _ hs ih => exact acyclic_set_thread_dependency _ _ _ _ _ ih hs
  | clear _ ih => exact acyclic_erase ih _

/-- C14: acyclicity is an invariant of the dependency map.  On an acyclic map, every call
of `set_thread_dependency` (whether it returns true and records the edge, or false) and
every call of `clear_thread_dependency` leaves an acyclic map; every map that arises from
the empty one by such calls is acyclic; and the incremental check is full cycle
detection: the call returns false exactly when the map with the edge from the caller to
the target recorded would have a cycle. -/
theorem acyclicity_invariant (d : List (ThreadId × ThreadId)) (hac : Acyclic d) :
    (∀ c t b dm', set_thread_dependency ⟨d⟩ c t = some (b, dm') →
      Acyclic dm'.dependencies) ∧
    (∀ c, Acyclic (clear_thread_dependency ⟨d⟩ c).dependencies) ∧
    (∀ dm, FromEmpty dm → Acyclic dm.dependencies) ∧
    (∀ c t, ∃ b dm', set_thread_dependency ⟨d⟩ c t = some (b, dm') ∧
      (b = false ↔ ¬ Acyclic (UMap.assign d c t))) := by
  refine ⟨?_, ?_, acyclic_fromEmpty, ?_⟩
  · intro c t b dm' h
    exact acyclic_set_thread_dependency ⟨d⟩ dm' c t b hac h
  · intro c
    exact acyclic_erase hac c
  · intro c t
    rcases set_thread_dependency_acyclic ⟨d⟩ c t hac with ⟨hp, h⟩ | ⟨hp, h⟩
    · exact ⟨false, _, h, ⟨fun _ => cyclic_assign d c t hp, fun _ => rfl⟩⟩
    · refine ⟨true, _, h, ⟨fun hb => absurd hb (by simp), fun hn => ?_⟩⟩
      exact absurd (acyclic_assign hac c t (fun e => hp (Or.inl e))
        (fun hr => hp (Or.inr hr))) hn

/-- C14 at the chain `1 → 2 → 3`. -/
theorem acyclicity_invariant_witness :
    Acyclic [(1, 2), (2, 3)] ∧
    (∀ c t b dm', set_thread_dependency ⟨[(1, 2), (2, 3)]⟩ c t = some (b, dm') →
      Acyclic dm'.dependencies) ∧
    (∀ c, Acyclic (clear_thread_dependency ⟨[(1, 2), (2, 3)]⟩ c).dependencies) ∧
    (∀ dm, FromEmpty dm → Acyclic dm.dependencies) ∧
    (∀ c t, ∃ b dm', set_thread_dependency ⟨[(1, 2), (2, 3)]⟩ c t = some (b, dm') ∧
      (b = false ↔ ¬ Acyclic (UMap.assign [(1, 2), (2, 3)] c t))) :=
  have hac : Acyclic [(1, 2), (2, 3)] :=
    acyclic_of_increasing _ (by
      intro x y h
      simp only [UMap.find?] at h
      split_ifs at h with h1 h2
      · cases h; subst h1; decide
      · cases h; subst h2; decide)
  ⟨hac, acyclicity_invariant [(1, 2), (2, 3)] hac⟩

theorem walk_count_succ (d : List (ThreadId × ThreadId)) (c : ThreadId) (fuel : Nat)
    (x : ThreadId) :
    walk_count d c (fuel + 1) x =
      match UMap.find? d x with
      | none => some (true, 0)
      | some next =>
        if next = c then some (false, 1)
        else
          match walk_count d c fuel next with
          | none => none
          | some (b, k) => some (b, k + 1) := rfl

/-- The counting walk computes the result of the walk. -/
theorem walk_count_fst (d : List (ThreadId × ThreadId)) (c : ThreadId) :
    ∀ (fuel : Nat) (x : ThreadId),
      (walk_count d c fuel x).map Prod.fst = walk d c fuel x := by
  intro fuel
  induction fuel with
  | zero => intro x; rfl
  | succ n ih =>
    intro x
    rw [walk_count_succ, walk_succ]
    cases hx : UMap.find? d x with
    | none => rfl
    | some y =>
      by_cases hy : y = c
      · simp [hy]
      · simp only [hy, if_false]
        rw [← ih y]
        cases walk_count d c n y with
        | none => rfl
        | some p => rfl

theorem walk_count_erase (d : List (ThreadId × ThreadId)) (c k : ThreadId) :
    ∀ (fuel : Nat) (x : ThreadId), x ≠ k → ¬ Reaches d x k →
      walk_count (UMap.erase d k) c fuel x = walk_count d c fuel x := by
  intro fuel
  induction fuel with
  | zero => intro x _ _; rfl
  | succ n ih =>
    intro x hxk hr
    rw [walk_count_succ, walk_count_succ, UMap.find?_erase_ne d hxk]
    cases hx : UMap.find? d x with
    | none => rfl
    | some y =>
      by_cases hy : y = c
      · simp [hy]
      · simp only [hy, if_false]
        have hyk : y ≠ k := fun e => hr (e ▸ Reaches.edge hx)
        rw [ih y hyk (fun h => hr (Reaches.step hx h))]

/-- On an acyclic map the body of the loop is entered at most as often as the map has
entries. -/
theorem walk_count_bound (c : ThreadId) :
    ∀ (n : Nat) (d : List (ThreadId × ThreadId)), d.length ≤ n → Acyclic d →
      ∀ x, ∃ b k, walk_count d c (n + 1) x = some (b, k) ∧ k ≤ d.length := by
  intro n
  induction n with
  | zero =>
    intro d hd _ x
    have hnil : d = [] := List.length_eq_zero.mp (by omega)
    subst hnil
    exact ⟨true, 0, rfl, le_rfl⟩
  | succ n ih =>
    intro d hd hac x
    rw [walk_count_succ]
    cases hx : UMap.find? d x with
    | none => exact ⟨true, 0, rfl, Nat.zero_le _⟩
    | some y =>
      have hlt := UMap.length_erase_lt d x y hx
      by_cases hy : y = c
      · exact ⟨false, 1, by simp [hy], by omega⟩
      · simp only [hy, if_false]
        have hyx : y ≠ x := fun e => hac x (by rw [e] at hx; exact Reaches.edge hx)
        have hnr : ¬ Reaches d y x := fun h => hac x (Reaches.step hx h)
        obtain ⟨b, k, hb, hk⟩ := ih (UMap.erase d x) (by omega) (acyclic_erase hac x) y
        rw [walk_count_erase d c x (n + 1) y hyx hnr] at hb
        rw [hb]
        exact ⟨b, k + 1, rfl, by omega⟩

/-- C15: on an acyclic dependency map, for every caller and every target, the chain walk
of `set_thread_dependency` terminates, and the body of its loop is entered at most as
many times as the map has entries; so `set_thread_dependency` returns. -/
theorem walk_iterations_bound (d : List (ThreadId × ThreadId)) (c t : ThreadId)
    (hac : Acyclic d) :
    ∃ b k, walk_count d c (d.length + 1) t = some (b, k) ∧ k ≤ d.length ∧
      walk d c (d.length + 1) t = some b ∧
      ∃ res, set_thread_dependency ⟨d⟩ c t = some res := by
  obtain ⟨b, k, hb, hk⟩ := walk_count_bound c d.length d le_rfl hac t
  have hw : walk d c (d.length + 1) t = some b := by
    rw [← walk_count_fst, hb]
    rfl
  refine ⟨b, k, hb, hk, hw, ?_⟩
  rcases set_thread_dependency_acyclic ⟨d⟩ c t hac with ⟨_, h⟩ | ⟨_, h⟩
  · exact ⟨_, h⟩
  · exact ⟨_, h⟩

/-- C15 at the chain `1 → 2 → 3`, caller `9`, target `1`. -/
theorem walk_iterations_bound_witness :
    Acyclic [(1, 2), (2, 3)] ∧
    ∃ b k, walk_count [(1, 2), (2, 3)] 9 ([(1, 2), (2, 3)].length + 1) 1 = some (b, k) ∧
      k ≤ [(1, 2), (2, 3)].length ∧
      walk [(1, 2), (2, 3)] 9 ([(1, 2), (2, 3)].length + 1) 1 = some b ∧
      ∃ res, set_thread_dependency ⟨[(1, 2), (2, 3)]⟩ 9 1 = some res :=
  have hac : Acyclic [(1, 2), (2, 3)] :=
    acyclic_of_increasing _ (by
      intro x y h
      simp only [UMap.find?] at h
      split_ifs at h with h1 h2
      · cases h; subst h1; decide
      · cases h; subst h2; decide)
  ⟨hac, walk_iterations_bound [(1, 2), (2, 3)] 9 1 hac⟩

end DependencyManager

namespace DependencyManager

theorem subscript_of_find? {κ ν : Type} [DecidableEq κ] (m : List (κ × ν)) (k : κ)
    (v dflt : ν) (h : UMap.find? m k = some v) :
    UMap.subscript m k dflt = m ∧ UMap.subscript_value m k dflt = v := by
  simp [UMap.subscript, UMap.subscript_value, UMap.contains, h]

/-- The subscripts of the loop never insert: the loop taken literally returns the result
of `walk` and the map it was given. -/
theorem walk_subscript_eq (no_thread c : ThreadId) (d : List (ThreadId × ThreadId)) :
    ∀ (fuel : Nat) (x : ThreadId),
      walk_subscript no_thread c fuel d x = (walk d c fuel x).map (fun b => (b, d)) := by
  intro fuel
  induction fuel with
  | zero => intro x; rfl
  | succ n ih =>
    intro x
    rw [walk_succ]
    unfold walk_subscript
    cases hx : UMap.find? d x with
    | none => simp [UMap.contains, hx]
    | some y =>
      obtain ⟨h1, h2⟩ := subscript_of_find? d x y no_thread hx
      have hc : UMap.contains d x = true := by simp [UMap.contains, hx]
      simp only [hc, if_true, h1, h2]
      by_cases hy : y = c
      · simp [hy]
      · simp only [hy, if_false]
        exact ih y

/-- C16: when `set_thread_dependency(t)` called by `c` returns true, the resulting map
maps `c` to `t` and agrees with the prior map on every other thread; when it returns
false, the map is exactly the prior map.  The lookups of the walk change nothing: the loop
with its subscripts taken literally hands back the map it was given. -/
theorem set_thread_dependency_effect (dm dm' : DependencyManager) (c t : ThreadId)
    (b : Bool) (h : set_thread_dependency dm c t = some (b, dm')) :
    (b = true → UMap.find? dm'.dependencies c = some t ∧
      ∀ x, x ≠ c → UMap.find? dm'.dependencies x = UMap.find? dm.dependencies x) ∧
    (b = false → dm' = dm) ∧
    (∀ no_thread fuel x, walk_subscript no_thread c fuel dm.dependencies x
      = (walk dm.dependencies c fuel x).map (fun r => (r, dm.dependencies))) := by
  refine ⟨?_, ?_, fun no_thread fuel x => walk_subscript_eq no_thread c dm.dependencies fuel x⟩
  · intro hb
    subst hb
    obtain ⟨_, _, hdm⟩ := set_thread_dependency_true_eq dm dm' c t h
    rw [hdm]
    exact ⟨UMap.find?_assign_self _ _ _, fun x hx => UMap.find?_assign_ne _ _ hx⟩
  · intro hb
    subst hb
    exact (set_thread_dependency_false_eq dm dm' c t h).2

/-- C16 at the map `1 → 2 → 3`: the call by `9` for target `1` returns true and records
`9 → 1`; the call by `3` for target `1` returns false and leaves the map as it was. -/
theorem set_thread_dependency_effect_witness :
    set_thread_dependency ⟨[(1, 2), (2, 3)]⟩ 9 1 = some (true, ⟨[(9, 1), (1, 2), (2, 3)]⟩) ∧
    (UMap.find? [(9, 1), (1, 2), (2, 3)] 9 = some 1 ∧
      ∀ x, x ≠ 9 → UMap.find? [(9, 1), (1, 2), (2, 3)] x = UMap.find? [(1, 2), (2, 3)] x) ∧
    set_thread_dependency ⟨[(1, 2), (2, 3)]⟩ 3 1 = some (false, ⟨[(1, 2), (2, 3)]⟩) ∧
    (⟨[(1, 2), (2, 3)]⟩ : DependencyManager) = ⟨[(1, 2), (2, 3)]⟩ :=
  ⟨rfl,
    (set_thread_dependency_effect ⟨[(1, 2), (2, 3)]⟩ ⟨[(9, 1), (1, 2), (2, 3)]⟩ 9 1 true
      rfl).1 rfl,
    rfl,
    (set_thread_dependency_effect ⟨[(1, 2), (2, 3)]⟩ ⟨[(1, 2), (2, 3)]⟩ 3 1 false
      rfl).2.1 rfl⟩

end DependencyManager

/-! ## The guard during `safe_lock` -/

namespace LockManager

end LockManager

end CSC
